import Mathlib

/-!
# Verification of the `jupyter-book` TOC subsystem

A shallow embedding of `src/jupyter_book/toc.py` (plus the small pieces of
`src/jupyter_book/commands/__init__.py` that drive it).  Python's nested
dict/list TOC representation is embedded as the inductive type `Yaml`;
`pathlib`/`os.path` operations used by the code are modelled explicitly.
-/

namespace JB

/-- Embedding of the Python values that make up a TOC tree: YAML scalars,
sequences and (insertion-ordered) mappings.  A Python `dict` is an
association list in declaration order; `None` is `Yaml.null`. -/
inductive Yaml where
  | null : Yaml
  | str : String → Yaml
  | bool : Bool → Yaml
  | list : List Yaml → Yaml
  | map : List (String × Yaml) → Yaml
  deriving BEq, Repr

mutual

/-- Decidable equality for `Yaml` (written by hand: automatic deriving does not
handle the nested `List` occurrences). -/
def decEqY : (a b : Yaml) → Decidable (a = b)
  | .null, .null => isTrue rfl
  | .str a, .str b =>
      match decEq a b with
      | isTrue h => isTrue (by rw [h])
      | isFalse h => isFalse (by intro hc; cases hc; exact h rfl)
  | .bool a, .bool b =>
      match decEq a b with
      | isTrue h => isTrue (by rw [h])
      | isFalse h => isFalse (by intro hc; cases hc; exact h rfl)
  | .list xs, .list ys =>
      match decEqYL xs ys with
      | isTrue h => isTrue (by rw [h])
      | isFalse h => isFalse (by intro hc; cases hc; exact h rfl)
  | .map xs, .map ys =>
      match decEqYM xs ys with
      | isTrue h => isTrue (by rw [h])
      | isFalse h => isFalse (by intro hc; cases hc; exact h rfl)
  | .null, .str _ | .null, .bool _ | .null, .list _ | .null, .map _ =>
      isFalse (by intro h; cases h)
  | .str _, .null | .str _, .bool _ | .str _, .list _ | .str _, .map _ =>
      isFalse (by intro h; cases h)
  | .bool _, .null | .bool _, .str _ | .bool _, .list _ | .bool _, .map _ =>
      isFalse (by intro h; cases h)
  | .list _, .null | .list _, .str _ | .list _, .bool _ | .list _, .map _ =>
      isFalse (by intro h; cases h)
  | .map _, .null | .map _, .str _ | .map _, .bool _ | .map _, .list _ =>
      isFalse (by intro h; cases h)

def decEqYL : (a b : List Yaml) → Decidable (a = b)
  | [], [] => isTrue rfl
  | [], _ :: _ => isFalse (by intro h; cases h)
  | _ :: _, [] => isFalse (by intro h; cases h)
  | x :: xs, y :: ys =>
      match decEqY x y with
      | isFalse h => isFalse (by intro hc; cases hc; exact h rfl)
      | isTrue h1 =>
        match decEqYL xs ys with
        | isTrue h2 => isTrue (by rw [h1, h2])
        | isFalse h2 => isFalse (by intro hc; cases hc; exact h2 rfl)

def decEqYM : (a b : List (String × Yaml)) → Decidable (a = b)
  | [], [] => isTrue rfl
  | [], _ :: _ => isFalse (by intro h; cases h)
  | _ :: _, [] => isFalse (by intro h; cases h)
  | (k, v) :: xs, (k', v') :: ys =>
      match decEq k k' with
      | isFalse h => isFalse (by intro hc; cases hc; exact h rfl)
      | isTrue hk =>
        match decEqY v v' with
        | isFalse h => isFalse (by intro hc; cases hc; exact h rfl)
        | isTrue hv =>
          match decEqYM xs ys with
          | isTrue h2 => isTrue (by rw [hk, hv, h2])
          | isFalse h2 => isFalse (by intro hc; cases hc; exact h2 rfl)

end

instance : DecidableEq Yaml := decEqY

/-- Python `dict.get(k)`: value of the first matching key, `None` if absent. -/
def getKey (kvs : List (String × Yaml)) (k : String) : Yaml :=
  match kvs with
  | [] => .null
  | (k', v) :: rest => if k' = k then v else getKey rest k

/-- Python `dict.get(k, d)`: value of the first matching key, default if absent
(note: a key that is present with value `None` yields `None`, not the default). -/
def getKeyD (kvs : List (String × Yaml)) (k : String) (d : Yaml) : Yaml :=
  match kvs with
  | [] => d
  | (k', v) :: rest => if k' = k then v else getKeyD rest k d

/-- Python `dict.__contains__`. -/
def hasKey (kvs : List (String × Yaml)) (k : String) : Bool :=
  match kvs with
  | [] => false
  | (k', _) :: rest => k' = k || hasKey rest k

/-- Python `d[k] = v`: replace the first occurrence in place, else append. -/
def setKey (kvs : List (String × Yaml)) (k : String) (v : Yaml) :
    List (String × Yaml) :=
  match kvs with
  | [] => [(k, v)]
  | (k', v') :: rest =>
      if k' = k then (k, v) :: rest else (k', v') :: setKey rest k v

/-- Python `dict.get(k)` as an `Option` (to distinguish a missing key). -/
def lookupKey (kvs : List (String × Yaml)) (k : String) : Option Yaml :=
  match kvs with
  | [] => none
  | (k', v) :: rest => if k' = k then some v else lookupKey rest k

theorem sizeOf_lookupKey {kvs : List (String × Yaml)} {k : String} {v : Yaml}
    (h : lookupKey kvs k = some v) : sizeOf v < sizeOf kvs := by
  induction kvs with
  | nil => simp [lookupKey] at h
  | cons hd tl ih =>
    rw [lookupKey] at h
    by_cases hk : hd.1 = k
    · simp [hk] at h
      subst h
      cases hd with
      | mk a b => simp; omega
    · simp [hk] at h
      have := ih h
      cases hd with
      | mk a b => simp; omega

/-! ## Path helpers (`pathlib.Path.suffix`, `with_suffix("")`, `os.path`) -/

/-- Index of the last `'.'` in a list of characters, if any. -/
def lastDotIdx : List Char → Option Nat
  | [] => none
  | c :: rest =>
      match lastDotIdx rest with
      | some i => some (i + 1)
      | none => if c = '.' then some 0 else none

/-- `pathlib.PurePath.suffix` on a single file name: the part from the last
dot, provided that dot is neither the first nor the last character. -/
def pySuffix (name : String) : String :=
  let cs := name.toList
  match lastDotIdx cs with
  | some i => if 0 < i ∧ i < cs.length - 1 then String.mk (cs.drop i) else ""
  | none => ""

/-- `Path(name).with_suffix("").name`: the file name with its suffix removed. -/
def pyStem (name : String) : String :=
  let cs := name.toList
  String.mk (cs.take (cs.length - (pySuffix name).toList.length))

/-- Split a character list at every occurrence of `sep` (Python
`str.split(sep)` for a one-character separator: always at least one chunk,
empty chunks kept). -/
def splitChar (sep : Char) : List Char → List (List Char)
  | [] => [[]]
  | c :: rest =>
      match splitChar sep rest with
      | [] => [[]]
      | g :: gs => if c = sep then [] :: g :: gs else (c :: g) :: gs

/-- Interleave `sep` between chunks (inverse of `splitChar`). -/
def joinChar (sep : Char) : List (List Char) → List Char
  | [] => []
  | [g] => g
  | g :: gs => g ++ sep :: joinChar sep gs

/-- Split a `/`-joined path into components. -/
def splitPath (s : String) : List String :=
  (splitChar '/' s.toList).map (fun cs => String.mk cs)

/-- Join components into a `/`-joined path. -/
def joinPath (cs : List String) : String :=
  String.mk (joinChar '/' (cs.map String.toList))

/-- `_no_suffix` from `toc.py`: `str(Path(path).with_suffix(""))` — strips the
suffix of the final path component. -/
def noSuffixPath (p : String) : String :=
  match (splitPath p).reverse with
  | [] => p
  | last :: revInit => joinPath (revInit.reverse ++ [pyStem last])

/-- `_no_suffix` applied to an arbitrary Python value: only strings are
changed (`toc.py` guards with `isinstance(path, str)`). -/
def noSuffixY : Yaml → Yaml
  | .str s => .str (noSuffixPath s)
  | y => y

/-! ## `find_name` (TocLocator) -/

mutual

/-- `find_name(pages, name)` from `toc.py`.  `pages` is an arbitrary Python
value; a `dict` is wrapped in a singleton list, a `list` is iterated.
`.error ()` models the Python exceptions the real code would raise
(`TypeError` when iterating `None`/`True`, `AttributeError` when an element
is not a dict).  Iterating a non-empty `str` yields 1-character strings whose
`.get` raises, while iterating an empty `str` runs the loop zero times. -/
def findNameY : Yaml → String → Except Unit (Option Yaml)
  | .map kvs, n => findNameNode kvs n
  | .list xs, n => findNameL xs n
  | .str s, _ => if s.isEmpty then .ok none else .error ()
  | _, _ => .error ()
termination_by y _ => 2 * sizeOf y + 1
decreasing_by all_goals simp_wf <;> omega

/-- The loop body of `find_name` over a list of pages. -/
def findNameL : List Yaml → String → Except Unit (Option Yaml)
  | [], _ => .ok none
  | .map kvs :: rest, n =>
      match findNameNode kvs n with
      | .ok none => findNameL rest n
      | r => r
  | _ :: _, _ => .error ()
termination_by xs _ => 2 * sizeOf xs
decreasing_by all_goals simp_wf <;> omega

/-- Handling of a single page dict inside `find_name`'s loop: match on the
suffix-stripped `file` value, else recurse into `page.get("pages", [])`
(an absent key yields `[]`, for which `find_name` returns `None`). -/
def findNameNode (kvs : List (String × Yaml)) (n : String) :
    Except Unit (Option Yaml) :=
  if noSuffixY (getKey kvs "file") = .str n then .ok (some (.map kvs))
  else
    match h : lookupKey kvs "pages" with
    | none => .ok none
    | some sections => findNameY sections n
termination_by 2 * sizeOf kvs + 2
decreasing_by have := sizeOf_lookupKey h; simp_wf; omega

end

/-- Does a page dict match the searched name (suffix-stripped `file` value)? -/
def matchesName (p : Yaml) (n : String) : Bool :=
  match p with
  | .map kvs => noSuffixY (getKey kvs "file") = Yaml.str n
  | _ => false

/-- The child list of a well-formed page dict (`pages` key, empty if absent). -/
def childrenOf (kvs : List (String × Yaml)) : List Yaml :=
  match lookupKey kvs "pages" with
  | some (.list xs) => xs
  | _ => []

theorem one_le_sizeOf_list {α : Type} [SizeOf α] (l : List α) :
    1 ≤ sizeOf l := by
  cases l <;> simp <;> omega

theorem sizeOf_childrenOf (kvs : List (String × Yaml)) :
    sizeOf (childrenOf kvs) ≤ sizeOf kvs := by
  unfold childrenOf
  split
  · next xs h =>
      have h1 := sizeOf_lookupKey h
      simp at h1
      omega
  · next =>
      have := one_le_sizeOf_list kvs
      simp
      omega

mutual

/-- Well-formed page forests: every node is a dict whose `pages` key, when
present, holds a list of well-formed nodes (never `null` or a scalar). -/
def wfL : List Yaml → Bool
  | [] => true
  | p :: rest => wfN p && wfL rest
termination_by xs => 2 * sizeOf xs
decreasing_by all_goals simp_wf <;> omega

def wfN : Yaml → Bool
  | .map kvs =>
      (match h : lookupKey kvs "pages" with
       | none => true
       | some (.list xs) => wfL xs
       | some _ => false)
  | _ => false
termination_by y => 2 * sizeOf y + 1
decreasing_by
  have h1 := sizeOf_lookupKey h; simp_wf; simp at h1; omega

end

mutual

/-- Modelled from the spec: depth-first pre-order enumeration of a page
forest ("depth-first, pre-order search comparing extension-stripped paths"),
used as the reference semantics `findByPath` is checked against. -/
def preorderL : List Yaml → List Yaml
  | [] => []
  | p :: rest => preorderN p ++ preorderL rest
termination_by xs => 2 * sizeOf xs
decreasing_by all_goals simp_wf <;> omega

/-- Pre-order enumeration of a single node: the node, then its children. -/
def preorderN : Yaml → List Yaml
  | .map kvs => .map kvs :: preorderL (childrenOf kvs)
  | _ => []
termination_by y => 2 * sizeOf y + 1
decreasing_by
  have := sizeOf_childrenOf kvs
  simp_wf
  omega

end

/-- Modelled from the spec: `findByPath` as "the first match of a depth-first
pre-order traversal", the reference `find_name` is compared with. -/
def findSpec (pages : Yaml) (n : String) : Option Yaml :=
  let forest :=
    match pages with
    | .map kvs => [Yaml.map kvs]
    | .list xs => xs
    | _ => []
  (preorderL forest).find? (fun p => matchesName p n)

/-! ## `os.path` / `sphinx.util` helpers used by `add_toctree` -/

/-- Substring search on character lists. -/
def containsSub : List Char → List Char → Bool
  | [], needle => needle.isEmpty
  | c :: t, needle => needle.isPrefixOf (c :: t) || containsSub t needle

/-- Python `needle in haystack` on strings. -/
def strContains (hay needle : String) : Bool :=
  containsSub hay.toList needle.toList

/-- Components of a relative path as `os.path.relpath` sees them (empty and
`.` components disappear when the path is made absolute). -/
def relComps (s : String) : List String :=
  (splitPath s).filter (fun c => c ≠ "" && c ≠ ".")

/-- Drop the longest common prefix of two component lists. -/
def dropCommonPrefix : List String → List String → List String × List String
  | x :: xs, y :: ys =>
      if x = y then dropCommonPrefix xs ys else (x :: xs, y :: ys)
  | xs, ys => (xs, ys)

/-- `os.path.relpath(path, start)` for two relative paths resolved against the
same working directory: pop the common prefix, then `..` for what is left of
`start`, then the remainder of `path`. -/
def relpath (path start : String) : String :=
  let (p, s) := dropCommonPrefix (relComps path) (relComps start)
  let rel := s.map (fun _ => "..") ++ p
  if rel.isEmpty then "." else joinPath rel

/-- The last component of a path string. -/
def lastComponent (s : String) : String :=
  match (splitPath s).reverse with
  | [] => s
  | c :: _ => c

/-- `str(Path(p).parent)`: drop the last component (`"."` for a bare name). -/
def pyParent (p : String) : String :=
  match (splitPath p).dropLast with
  | [] => "."
  | cs => joinPath cs

/-- `posixpath.normpath` on components of an absolute path: `.` and empty
components vanish, `..` pops the previous component (and collapses at root). -/
def normComps (cs : List String) : List String :=
  cs.foldl
    (fun acc c =>
      if c = "." ∨ c = "" then acc
      else if c = ".." then acc.dropLast
      else acc ++ [c])
    []

/-- `sphinx.util.docname_join(basedocname, docname)`:
`posixpath.normpath(posixpath.join('/' + basedocname, '..', docname))[1:]`. -/
def docname_join (base doc : String) : String :=
  joinPath (normComps (splitPath base ++ [".."] ++ splitPath doc))

/-! ## `add_toctree` (TocInjector) -/

/-- The fields of the `addnodes.toctree` node that `add_toctree` fills from
the TOC (the remaining fields are constants). -/
structure Toctree where
  parent : String
  entries : List (Yaml × String)
  includefiles : List String
  numbered : Bool
  deriving DecidableEq, Repr

/-- The inputs `add_toctree(app, doctree)` reads from the Sphinx `app`:
the configured TOC path, the loaded TOC, the current document's name and the
suffix `env.doc2path` appends to it. -/
structure App where
  globaltoc_path : String
  globaltoc : Yaml
  docname : String
  src_suffix : String

/-- A document, reduced to what `add_toctree` touches: its `nodes.section`
list, each section carrying the toctree wrapper nodes appended to it. -/
def Doctree := List (List Toctree)

/-- The `FileNotFoundError` message raised when a page is missing from the TOC. -/
def tocNotFoundMsg (path : String) : String :=
  "The following path in your table of contents couldn't be found:\n\n" ++
    path ++ ".\n\nDouble check your `_toc.yml` file to make sure the paths are correct."

/-- `add_toctree(app, doctree)` from `toc.py`.  Errors model the Python
exceptions: the explicit `FileNotFoundError` for a page missing from the TOC,
and the implicit `TypeError`/`KeyError`/`IndexError` the dynamic code would
raise on malformed trees or an empty section list. -/
def add_toctree (app : App) (doctree : Doctree) : Except String Doctree :=
  if app.globaltoc_path = "" then .ok doctree
  else
    let path := app.docname ++ app.src_suffix
    match findNameY app.globaltoc (noSuffixPath path) with
    | .error _ => .error "TypeError"
    | .ok none => .error (tocNotFoundMsg path)
    | .ok (some page) =>
      match page with
      | .map kvs =>
        -- sections = [(ii.get("title"), ii.get("file")) for ii in page.get("pages", [])]
        let raw := getKeyD kvs "pages" (.list [])
        match raw with
        | .list items =>
          if items.all (fun ii => ii matches .map _) then
            let sections0 : List (Yaml × Yaml) :=
              items.map (fun ii =>
                match ii with
                | .map ikvs => (getKey ikvs "title", getKey ikvs "file")
                | _ => (.null, .null))
            if sections0.isEmpty then .ok doctree
            else
              match lookupKey kvs "file" with
              | none => .error "KeyError"
              | some fileV =>
                match fileV with
                | .str file =>
                  let parentFolder := pyParent file
                  if sections0.all (fun s => s.2 matches .str _) then
                    let sections : List (Yaml × String) :=
                      sections0.map (fun s =>
                        match s.2 with
                        | .str f => (s.1, relpath f parentFolder)
                        | _ => (s.1, ""))
                    let entries :=
                      sections.map (fun s => (s.1, docname_join app.docname s.2))
                    let subnode : Toctree :=
                      { parent := app.docname
                        entries := entries
                        includefiles := entries.map (·.2)
                        numbered := hasKey kvs "numbered" }
                    match doctree.reverse with
                    | [] => .error "IndexError"
                    | lastSec :: revInit =>
                        .ok ((lastSec ++ [subnode]) :: revInit).reverse
                  else .error "TypeError"
                | _ => .error "TypeError"
          else .error "AttributeError"
        | _ => .error "TypeError"
      | _ => .error "AttributeError"

/-- Just the relative-path computation of `add_toctree` (lines 57–65): the
`(title, path)` pairs after each child's `file` is re-expressed relative to
the current page's containing directory. -/
def tocSections (pageKvs : List (String × Yaml)) : Option (List (Yaml × String)) :=
  match getKeyD pageKvs "pages" (.list []) with
  | .list items =>
    let sections0 : List (Yaml × Yaml) :=
      items.map (fun ii =>
        match ii with
        | .map ikvs => (getKey ikvs "title", getKey ikvs "file")
        | _ => (.null, .null))
    match lookupKey pageKvs "file" with
    | some (.str file) =>
      if sections0.all (fun s => s.2 matches .str _) then
        some (sections0.map (fun s =>
          match s.2 with
          | .str f => (s.1, relpath f (pyParent file))
          | _ => (s.1, "")))
      else none
    | _ => none
  | _ => none

/-! ## `update_indexname` (TocSerializer, deserialization side) -/

/-- Lines 110–115 of `toc.py`: a top-level list is collapsed onto its first
element; with two or more elements the remaining ones are assigned to the
first element's `pages` key (replacing any existing value).  Errors model
`IndexError` on an empty list and `TypeError` when the first element is not a
dict. -/
def normalize_toc : Yaml → Except String Yaml
  | .list [] => .error "IndexError"
  | .list (t :: rest) =>
      if rest.isEmpty then .ok t
      else
        match t with
        | .map kvs => .ok (.map (setKey kvs "pages" (.list rest)))
        | _ => .error "TypeError"
  | y => .ok y

/-- Line 119 of `toc.py`: `toc["file"]` (raises if `toc` is not a dict or the
key is absent). -/
def getItemFile : Yaml → Except String Yaml
  | .map kvs =>
      match lookupKey kvs "file" with
      | some v => .ok v
      | none => .error "KeyError"
  | _ => .error "TypeError"

/-- The pure part of `update_indexname` after `yaml.safe_load`: normalize the
top level, and require the root `file` lookup of line 119 to succeed. -/
def update_indexname_toc (toc : Yaml) : Except String Yaml := do
  let toc ← normalize_toc toc
  let _ ← getItemFile toc
  return toc

/-! ## Block-style YAML emission (`yaml.safe_dump(..., default_flow_style=False,
sort_keys=False)`), modelled on the fragment the TOC code produces: nested
dicts with plain-scalar string values, booleans, and lists of dicts.
PyYAML emits block sequences indentless (the `- ` sits at the column of the
parent key) and map items of a sequence element inline after the `- `. -/

/-- `n` spaces. -/
def pad (n : Nat) : List Char := List.replicate n ' '

mutual

/-- One `key: value` entry at the given indentation. -/
def emitKV (ind : Nat) (k : String) (v : Yaml) : List (List Char) :=
  match v with
  | .str s => [pad ind ++ k.toList ++ ':' :: ' ' :: s.toList]
  | .bool b =>
      [pad ind ++ k.toList ++ ':' :: ' ' ::
        (if b then "true" else "false").toList]
  | .list xs => (pad ind ++ k.toList ++ [':']) :: emitItems ind xs
  | _ => []
termination_by 2 * sizeOf v + 1
decreasing_by simp_wf; omega

/-- A block sequence, one `- ` item after another. -/
def emitItems (ind : Nat) : List Yaml → List (List Char)
  | [] => []
  | x :: rest => emitItem ind x ++ emitItems ind rest
termination_by xs => 2 * sizeOf xs
decreasing_by all_goals simp_wf <;> omega

/-- One sequence element (a non-empty dict): its first entry rides on the
`- ` line, the remaining entries are indented two further columns. -/
def emitItem (ind : Nat) (x : Yaml) : List (List Char) :=
  match x with
  | .map ((k, v) :: restKvs) =>
      (match v with
       | .str s =>
           (pad ind ++ '-' :: ' ' :: k.toList ++ ':' :: ' ' :: s.toList) ::
             emitMap (ind + 2) restKvs
       | .bool b =>
           (pad ind ++ '-' :: ' ' :: k.toList ++ ':' :: ' ' ::
               (if b then "true" else "false").toList) ::
             emitMap (ind + 2) restKvs
       | .list xs =>
           (pad ind ++ '-' :: ' ' :: k.toList ++ [':']) ::
             (emitItems (ind + 2) xs ++ emitMap (ind + 2) restKvs)
       | _ => [])
  | _ => []
termination_by 2 * sizeOf x + 1
decreasing_by all_goals simp_wf <;> omega

/-- A block mapping at the given indentation. -/
def emitMap (ind : Nat) : List (String × Yaml) → List (List Char)
  | [] => []
  | (k, v) :: rest => emitKV ind k v ++ emitMap ind rest
termination_by kvs => 2 * sizeOf kvs
decreasing_by all_goals simp_wf <;> omega

end

/-- Join emitted lines, a newline after each (as `safe_dump` does). -/
def unlines (ls : List (List Char)) : List Char :=
  ls.foldr (fun l acc => l ++ '\n' :: acc) []

/-- `yaml.safe_dump(structure, default_flow_style=False, sort_keys=False)` on
the block fragment of the TOC schema (dict or list-of-dicts root). -/
def safe_dump (y : Yaml) : String :=
  match y with
  | .map kvs => String.mk (unlines (emitMap 0 kvs))
  | .list xs => String.mk (unlines (emitItems 0 xs))
  | _ => ""

/-! ## Block-style YAML parsing (`yaml.safe_load` on the fragment emitted
above).  The parser is a model of the external library restricted to the
block documents `safe_dump` produces for TOC trees: plain scalars,
`true`/`false` booleans, block mappings and indentless block sequences. -/

/-- One classified input line: `key: value`, `key:` introducing a nested
block, or a `- ` sequence item carrying the rest of its first line. -/
inductive LineTok where
  | kv (ind : Nat) (k : List Char) (v : List Char)
  | keyOnly (ind : Nat) (k : List Char)
  | dash (ind : Nat) (r : List Char)
  deriving Repr

/-- Number of leading spaces. -/
def countIndent : List Char → Nat
  | ' ' :: t => countIndent t + 1
  | _ => 0

/-- Split at the first `':'`, dropping it. -/
def splitAtColon : List Char → Option (List Char × List Char)
  | [] => none
  | ':' :: t => some ([], t)
  | c :: t =>
      match splitAtColon t with
      | some (a, b) => some (c :: a, b)
      | none => none

/-- Classify one line of block YAML. -/
def classify (l : List Char) : Option LineTok :=
  let ind := countIndent l
  let r := l.drop ind
  match r with
  | [] => none
  | '-' :: ' ' :: rest => some (.dash ind rest)
  | _ =>
    match splitAtColon r with
    | some (k, after) =>
        if k.isEmpty then none
        else
          match after with
          | [] => some (.keyOnly ind k)
          | ' ' :: v => if v.isEmpty then none else some (.kv ind k v)
          | _ => none
    | none => none

/-- Resolve a plain scalar: `true`/`false` are booleans, everything else in
this fragment is a string. -/
def scalarOf (v : List Char) : Yaml :=
  if v = "true".toList then .bool true
  else if v = "false".toList then .bool false
  else .str (String.mk v)

mutual

/-- Parse consecutive mapping entries at indentation `ind`; stops (leaving
the remaining lines) at a line that is not a key at exactly this
indentation.  Structural in the explicit fuel. -/
def pMap : Nat → Nat → List (List Char) →
    Option (List (String × Yaml) × List (List Char))
  | 0, _, _ => none
  | Nat.succ fuel, ind, ls =>
    match ls with
    | [] => some ([], [])
    | l :: rest =>
      match classify l with
      | some (.kv i k v) =>
          if i = ind then
            match pMap fuel ind rest with
            | some (kvs, rem) => some ((String.mk k, scalarOf v) :: kvs, rem)
            | none => none
          else some ([], ls)
      | some (.keyOnly i k) =>
          if i = ind then
            match pItems fuel ind rest with
            | some (items, rem) =>
              match pMap fuel ind rem with
              | some (kvs, rem2) =>
                  some ((String.mk k, .list items) :: kvs, rem2)
              | none => none
            | none => none
          else some ([], ls)
      | some (.dash _ _) => some ([], ls)
      | none => none

/-- Parse consecutive `- ` sequence items at indentation `ind`: the text
after the dash is re-read as the item's first mapping entry two columns
deeper.  Stops at a line that is not a dash at exactly this indentation. -/
def pItems : Nat → Nat → List (List Char) →
    Option (List Yaml × List (List Char))
  | 0, _, _ => none
  | Nat.succ fuel, ind, ls =>
    match ls with
    | [] => some ([], [])
    | l :: rest =>
      match classify l with
      | some (.dash i r) =>
          if i = ind then
            match pMap fuel (ind + 2) ((pad (ind + 2) ++ r) :: rest) with
            | some (kvs, rem) =>
                match pItems fuel ind rem with
                | some (items, rem2) => some (.map kvs :: items, rem2)
                | none => none
            | none => none
          else some ([], ls)
      | some _ => some ([], ls)
      | none => none

end

/-- `yaml.safe_load` on the emitted fragment: split into lines, drop blank
lines, and parse a top-level block mapping (or, when the first line is a
dash, a top-level block sequence).  The fuel bound is generous; parsing
consumes at least one line every two steps. -/
def safe_load (text : String) : Option Yaml :=
  let ls := (splitChar '\n' text.toList).filter (fun l => !l.isEmpty)
  let fuel := 2 * ls.length + 2
  match ls with
  | [] => none
  | l :: _ =>
      match classify l with
      | some (.dash _ _) =>
          match pItems fuel 0 ls with
          | some (items, []) => some (.list items)
          | _ => none
      | _ =>
          match pMap fuel 0 ls with
          | some (kvs, []) => some (.map kvs)
          | _ => none

/-- `deserialize`: parse the persisted text and run `update_indexname`'s
normalization over the result (lines 109–119 of `toc.py`). -/
def deserialize (text : String) : Except String Yaml :=
  match safe_load text with
  | none => .error "yaml.YAMLError"
  | some toc => update_indexname_toc toc

/-! ## The documented TOC schema (keys `file`, `title`, `pages`, `numbered`,
`divider`, `header`), restricted to scalars `safe_dump` emits plain. -/

/-- Characters that PyYAML leaves unquoted in the scalars of this fragment. -/
def plainChar (c : Char) : Bool :=
  c.isAlphanum || c = ' ' || c = '/' || c = '_' || c = '-' || c = '.'

/-- Scalar strings `safe_dump` emits plain and unwrapped: non-empty, from
the safe character set, starting alphanumeric, not ending in a space, short
enough not to wrap, and not resembling a YAML boolean/null/number. -/
def plainScalar (s : String) : Bool :=
  let cs := s.toList
  !cs.isEmpty && cs.all plainChar &&
  (match cs with
   | c :: _ => c.isAlphanum
   | [] => false) &&
  (match cs.reverse with
   | c :: _ => !(c = ' ')
   | [] => false) &&
  !(cs.all (fun c => c.isDigit || c = '.' || c = '-' || c = ' ')) &&
  cs.length ≤ 60 &&
  !(["true", "false", "null", "yes", "no", "on", "off",
     "True", "False", "Null", "Yes", "No", "On", "Off",
     "TRUE", "FALSE", "NULL", "YES", "NO", "ON", "OFF"].contains s)

mutual

/-- Value types the documented schema allows per key: `file`/`title`/`header`
are plain strings, `numbered`/`divider` booleans, `pages` a non-empty list
of schema nodes; no other keys. -/
def schemaVal (k : String) (v : Yaml) : Bool :=
  if k = "file" || k = "title" || k = "header" then
    match v with
    | .str s => plainScalar s
    | _ => false
  else if k = "numbered" || k = "divider" then
    match v with
    | .bool _ => true
    | _ => false
  else if k = "pages" then
    match v with
    | .list (x :: xs) => schemaItems (x :: xs)
    | _ => false
  else false
termination_by 2 * sizeOf v + 2
decreasing_by all_goals simp_wf <;> omega

/-- A node's entries: schema-typed values with pairwise-distinct keys (the
Python tree is a dict). -/
def schemaKVs : List (String × Yaml) → Bool
  | [] => true
  | (k, v) :: rest =>
      schemaVal k v && !(rest.any (fun p => p.1 = k)) && schemaKVs rest
termination_by kvs => 2 * sizeOf kvs
decreasing_by all_goals simp_wf <;> omega

/-- Sequence items: non-empty dicts within the schema. -/
def schemaItems : List Yaml → Bool
  | [] => true
  | .map (kv :: kvs) :: rest => schemaKVs (kv :: kvs) && schemaItems rest
  | _ => false
termination_by xs => 2 * sizeOf xs + 1
decreasing_by all_goals simp_wf <;> omega

end

/-- A serializable root: a schema node with a `file` entry (line 119 of
`toc.py` reads `toc["file"]` right after deserialization). -/
def schemaRoot (t : Yaml) : Bool :=
  match t with
  | .map kvs => schemaKVs kvs && hasKey kvs "file"
  | _ => false

/-! ## ContentScanner (`_content_path_to_yaml`, `_find_content_structure`,
`build_toc`) -/

/-- A file-system subtree: either a file, or a directory with its entries in
the (arbitrary) order `Path.iterdir()` yields them. -/
inductive FsEntry where
  | file (name : String)
  | dir (name : String) (entries : List FsEntry)
  deriving BEq, Repr

/-- The entry's own name (final path component). -/
def FsEntry.name : FsEntry → String
  | .file n => n
  | .dir n _ => n

/-- Python `Path.is_dir()`. -/
def FsEntry.isDir : FsEntry → Bool
  | .file _ => false
  | .dir _ _ => true

/-- Modelled from the spec: `SUPPORTED_FILE_SUFFIXES` lives in
`jupyter_book/utils.py`, which is not part of the sources; the spec describes
it as "a fixed allow-list of content extensions (documentation source
formats)". -/
def SUPPORTED_FILE_SUFFIXES : List String := [".ipynb", ".md"]

/-- Python `str.split(sep)` on character lists, fuel-driven (the fuel is the
input length, always sufficient). -/
def splitOnAuxCs (sep : List Char) : Nat → List Char → List (List Char)
  | _, [] => [[]]
  | 0, cs => [cs]
  | Nat.succ fuel, c :: rest =>
      if sep.isPrefixOf (c :: rest) then
        [] :: splitOnAuxCs sep fuel ((c :: rest).drop sep.length)
      else
        match splitOnAuxCs sep fuel rest with
        | [] => [[]]
        | g :: gs => (c :: g) :: gs

/-- Python `str.split(sep)` for a non-empty separator. -/
def splitOnStr (cs sep : List Char) : List (List Char) :=
  if sep.isEmpty then [cs] else splitOnAuxCs sep cs.length cs

/-- Python `str.capitalize`: first character upper-cased, the rest lowered. -/
def capitalize (cs : List Char) : List Char :=
  match cs with
  | [] => []
  | c :: rest => c.toUpper :: rest.map Char.toLower

/-- Modelled from the spec: `_filename_to_title` lives in
`jupyter_book/utils.py`, which is not part of the sources; the spec says
"Title derivation replaces the split character with spaces and applies a
capitalization policy". -/
def filenameToTitle (name split_char : String) : String :=
  String.mk (joinChar ' '
    ((splitOnStr name.toList split_char.toList).map capitalize))

/-- `_content_path_to_yaml(path, root_path, split_char)`: the `file`/`title`
entries for one content file.  `fname` is the file's name, `dirName` the name
of the directory holding it (used for the title of an `index` file), `relDir`
the directory's components relative to the scan root.  Note the suffix is
stripped twice (lines 124 and 131), so a stem that itself contains a dot
loses a second "extension" in the `file` value. -/
def content_path_to_yaml (fname dirName : String) (relDir : List String)
    (split_char : String) : List (String × Yaml) :=
  let stem := pyStem fname
  let title :=
    if stem = "index" then filenameToTitle dirName split_char
    else filenameToTitle stem split_char
  [("file", .str (joinPath (relDir ++ [pyStem stem]))),
   ("title", .str title)]

/-- The `for ii, ifile in enumerate(content_files): ... content_files.pop(ii)`
loop of `_find_content_structure`: Python's `enumerate` iterates over the
live list, so after `content_files.pop(ii)` the iterator resumes at position
`ii + 1` of the already-shifted list — the element that directly followed a
popped `index` file stays in the list but is never itself examined.
Returns the last `first_content` assigned and the remaining list. -/
def findIndexGo : List FsEntry → Option FsEntry → Option FsEntry × List FsEntry
  | [], fc => (fc, [])
  | e :: rest, fc =>
      if pyStem e.name = "index" then
        match rest with
        | [] => (some e, [])
        | e2 :: rest2 =>
            let r := findIndexGo rest2 (some e)
            (r.1, e2 :: r.2)
      else
        let r := findIndexGo rest fc
        (r.1, e :: r.2)

/-- Does this path match one of the skip substrings (`iskip in str(path)`)? -/
def skipHit (skip : List String) (pathStr : String) : Bool :=
  skip.any (fun t => strContains pathStr t)

/-- Assemble the parent dict of one directory: `file`/`title` of the anchor
(line 160, with the caller's `split_char`), then the sibling files that
survive the skip filter — note line 167 calls `_content_path_to_yaml` without
`split_char`, so sibling titles use the default `"_"` — then the subfolder
results; the `pages` key is dropped again when it ends up empty. -/
def assembleParent (fc : FsEntry) (siblings : List FsEntry)
    (subPages : List Yaml) (dirName : String) (relDir : List String)
    (pathStr : String) (split_char : String) (skip : List String) : Yaml :=
  let parentKVs := content_path_to_yaml fc.name dirName relDir split_char
  let childPages :=
    (siblings.filter (fun e => !skipHit skip (pathStr ++ "/" ++ e.name))).map
      (fun e => Yaml.map (content_path_to_yaml e.name dirName relDir "_"))
  let pages := childPages ++ subPages
  .map (parentKVs ++ if pages.isEmpty then [] else [("pages", .list pages)])

mutual

/-- `_find_content_structure(path, root_folder, split_char, skip_text)`.
`entries` is `path.iterdir()` in listing order; `dirName` the directory's own
name, `relDir` its components relative to `root_folder`, `pathStr` the
`str()` of the directory path as given (skip substrings match against it).
The caller's `skip_text` list is mutated by the Python code (`.append`), so
every level appends another `".ipynb_checkpoints"` and recursive calls see
the extended list. -/
def scanEntries (entries : List FsEntry) (dirName : String)
    (relDir : List String) (pathStr : String) (split_char : String)
    (skip_text : List String) : Option Yaml :=
  let skip := skip_text ++ [".ipynb_checkpoints"]
  let content_files :=
    entries.filter (fun e => SUPPORTED_FILE_SUFFIXES.contains (pySuffix e.name))
  if content_files.isEmpty then none
  else
    let res := findIndexGo content_files none
    let subPages := scanFolders entries relDir pathStr split_char skip
    match res.1, res.2 with
    | some fc, siblings =>
        some (assembleParent fc siblings subPages dirName relDir pathStr
          split_char skip)
    | none, [] => none  -- unreachable: nothing was popped, so res.2 = content_files ≠ []
    | none, fc :: siblings =>
        some (assembleParent fc siblings subPages dirName relDir pathStr
          split_char skip)
termination_by 2 * sizeOf entries + 1
decreasing_by all_goals simp_wf <;> omega

/-- The `for folder in folders:` loop: recurse into subdirectories in listing
order, dropping those whose path matches a skip substring, and collect the
non-null results. -/
def scanFolders (entries : List FsEntry) (relDir : List String)
    (pathStr : String) (split_char : String) (skip : List String) :
    List Yaml :=
  match entries with
  | [] => []
  | .file _ :: rest => scanFolders rest relDir pathStr split_char skip
  | .dir n sub :: rest =>
      if skipHit skip (pathStr ++ "/" ++ n) then
        scanFolders rest relDir pathStr split_char skip
      else
        match scanEntries sub n (relDir ++ [n]) (pathStr ++ "/" ++ n)
            split_char skip with
        | some y => y :: scanFolders rest relDir pathStr split_char skip
        | none => scanFolders rest relDir pathStr split_char skip
termination_by 2 * sizeOf entries
decreasing_by all_goals simp_wf <;> omega

end

/-- `build_toc(path, filename_split_char, skip_text)`: scan from the root and
serialize, or raise `ValueError` when the whole scan came back empty.
`rootArg` is the path string handed to the CLI; the root directory's own name
(`lastComponent rootArg`) is what index-file titles at the top level derive
from. -/
def build_toc (rootEntries : List FsEntry) (rootArg : String)
    (filename_split_char : String) (skip_text : List String) :
    Except String String :=
  match scanEntries rootEntries (lastComponent rootArg) [] rootArg
      filename_split_char skip_text with
  | none => .error ("No content files were found in " ++ rootArg ++ ".")
  | some st => .ok (safe_dump st)

/-- The qualifying-file filter of `_find_content_structure` (line 144). -/
def qualifies (e : FsEntry) : Bool :=
  SUPPORTED_FILE_SUFFIXES.contains (pySuffix e.name)


/-- The root node's `file` and `title` values (the anchor's identity). -/
def anchorFields : Option Yaml → Option (Yaml × Yaml)
  | some (.map kvs) => some (getKey kvs "file", getKey kvs "title")
  | _ => none


/-- Well-formed page values at the top level: a dict or a list of dicts. -/
def wfY : Yaml → Bool
  | .map kvs => wfN (.map kvs)
  | .list xs => wfL xs
  | _ => false


/-- A tree with the path `dup` at two different depths (the shallow one
first in pre-order). -/
def sampleDupTree : Yaml :=
  .map [("file", .str "a"),
        ("pages", .list
          [.map [("file", .str "dup.md")],
           .map [("file", .str "b"),
                 ("pages", .list
                   [.map [("file", .str "dup"), ("title", .str "deep")]])]])]


/-- A page dict with the given `file` value and children, each child a dict
with a `title` and a `file` (the shape ContentScanner emits and `_toc.yml`
files declare). -/
def mkPage (f : String) (children : List (Yaml × String)) :
    List (String × Yaml) :=
  [("file", .str f),
   ("pages", .list (children.map
     (fun c => .map [("title", c.1), ("file", .str c.2)])))]


/-- Key strings usable on an emitted line: non-empty, leading alphanumeric,
and free of colons and spaces. -/
def keyOk (cs : List Char) : Bool :=
  match cs with
  | [] => false
  | c :: _ => c.isAlphanum && cs.all (fun c => !(c = ':') && !(c = ' '))


/-- Lines at which `pMap ind` must stop: end of input, any dash line, or a
key line strictly left of `ind` (boundaries produced by enclosing blocks). -/
def bndMap (ind : Nat) : List (List Char) → Bool
  | [] => true
  | l :: _ =>
    match classify l with
    | some (.kv i _ _) => decide (i < ind)
    | some (.keyOnly i _) => decide (i < ind)
    | some (.dash i _) => decide (i < ind)
    | none => false

/-- Lines at which `pItems ind` must stop: end of input, a key line at `ind`
or left of it, or a dash line strictly left of `ind`. -/
def bndItems (ind : Nat) : List (List Char) → Bool
  | [] => true
  | l :: _ =>
    match classify l with
    | some (.kv i _ _) => decide (i ≤ ind)
    | some (.keyOnly i _) => decide (i ≤ ind)
    | some (.dash i _) => decide (i < ind)
    | none => false


mutual

/-- Node-count of a value (fuel measure for the parser: one unit per parsed
mapping entry / sequence item). -/
def ysizeV : Yaml → Nat
  | .list xs => ysizeI xs
  | _ => 0
termination_by y => 2 * sizeOf y + 1
decreasing_by all_goals simp_wf <;> omega

def ysizeM : List (String × Yaml) → Nat
  | [] => 0
  | (_, v) :: kt => 1 + ysizeV v + ysizeM kt
termination_by kvs => 2 * sizeOf kvs
decreasing_by all_goals simp_wf <;> omega

def ysizeI : List Yaml → Nat
  | [] => 0
  | .map kvs :: xt => 1 + ysizeM kvs + ysizeI xt
  | _ :: xt => 1 + ysizeI xt
termination_by xs => 2 * sizeOf xs
decreasing_by all_goals simp_wf <;> omega

end


/-- A character that is not a newline. -/
def noNlC (c : Char) : Bool := !(c = '\n')

/-- A well-formed emitted line: non-empty and newline-free, so that joining
with newlines and re-splitting recovers it. -/
def lineOk (l : List Char) : Bool := !l.isEmpty && l.all noNlC

/-- A sample schema tree exercising every documented key and nesting. -/
def sampleToc : Yaml :=
  .map [("file", .str "index"), ("title", .str "My Book"),
        ("numbered", .bool true),
        ("pages", .list
          [.map [("file", .str "docs/intro")],
           .map [("divider", .bool true)],
           .map [("header", .str "Part 1")],
           .map [("file", .str "docs/guide/index"), ("title", .str "Guide"),
                 ("pages", .list [.map [("file", .str "docs/guide/x")]])]])]


/-! ## Claim theorems -/

set_option maxRecDepth 16000

/-- C1: evaluation of the scanner at the inputs that decide the claim.
In a folder holding exactly `aaa.md` and `index.md` the anchor is indeed
`index` with `aaa` as its only child (first conjunct).  But with no `index`
file the code anchors the *first file in directory-listing order* — for the
`iterdir()` listing `[bbb.md, aaa.md]` the anchor is `bbb`, not the
alphanumerically-first `aaa` the claim (and `build_toc`'s own docstring)
promises: `_find_content_structure` never sorts `path.iterdir()`. -/
theorem scan_anchor_listing_order :
    scanEntries [.file "aaa.md", .file "index.md"] "book" [] "book" "_" [] =
      some (.map [("file", .str "index"), ("title", .str "Book"),
        ("pages", .list [.map [("file", .str "aaa"), ("title", .str "Aaa")]])]) ∧
    scanEntries [.file "bbb.md", .file "aaa.md"] "book" [] "book" "_" [] =
      some (.map [("file", .str "bbb"), ("title", .str "Bbb"),
        ("pages", .list [.map [("file", .str "aaa"), ("title", .str "Aaa")]])]) := by
  constructor <;> (simp only [scanEntries.eq_def, scanFolders.eq_def]; decide)

/-- C2: evaluation of the scanner at the listing `[b.md, a.md, index.md,
z/ c.md]`.  Subfolder anchors are indeed appended after same-level sibling
files, but the siblings appear as `[b, a]` — the raw `iterdir()` listing
order, not the alphanumeric order `[a, b]` the claim states: the code never
sorts files or subdirectories. -/
theorem scan_children_listing_order :
    scanEntries
        [.file "b.md", .file "a.md", .file "index.md", .dir "z" [.file "c.md"]]
        "book" [] "book" "_" [] =
      some (.map [("file", .str "index"), ("title", .str "Book"),
        ("pages", .list
          [.map [("file", .str "b"), ("title", .str "B")],
           .map [("file", .str "a"), ("title", .str "A")],
           .map [("file", .str "z/c"), ("title", .str "C")]])]) := by
  simp only [scanEntries.eq_def, scanFolders.eq_def]; decide

/-- C9: evaluation of the scanner with `split_char = "-"` on the listing
`[a.md, my-page.md]`.  The anchor's title goes through the caller's split
character, but line 167 of `toc.py` calls `_content_path_to_yaml` without
forwarding `split_char`, so the sibling's title is computed with the default
`"_"` and comes out `"My-page"` — not the `"My Page"` the claim's rule
(replace the configured split character by spaces) produces. -/
theorem scan_sibling_title_default_split :
    scanEntries [.file "a.md", .file "my-page.md"] "book" [] "book" "-" [] =
      some (.map [("file", .str "a"), ("title", .str "A"),
        ("pages", .list
          [.map [("file", .str "my-page"), ("title", .str "My-page")]])]) ∧
    filenameToTitle "my-page" "-" = "My Page" := by
  constructor
  · simp only [scanEntries.eq_def, scanFolders.eq_def]; decide
  · decide

theorem lookupKey_setKey_self (kvs : List (String × Yaml)) (k : String)
    (v : Yaml) : lookupKey (setKey kvs k v) k = some v := by
  induction kvs with
  | nil => simp [setKey, lookupKey]
  | cons hd tl ih =>
    by_cases h : hd.1 = k
    · cases hd; simp_all [setKey, lookupKey]
    · cases hd; simp_all [setKey, lookupKey]

theorem lookupKey_setKey_ne (kvs : List (String × Yaml)) (k k' : String)
    (v : Yaml) (h : k' ≠ k) :
    lookupKey (setKey kvs k v) k' = lookupKey kvs k' := by
  have h2 : ¬(k = k') := fun hc => h hc.symm
  induction kvs with
  | nil => simp [setKey, lookupKey, h2]
  | cons hd tl ih =>
    obtain ⟨a, b⟩ := hd
    simp only [setKey]
    by_cases hk : a = k
    · subst hk
      simp [lookupKey, h2]
    · simp only [if_neg hk, lookupKey]
      by_cases ha : a = k'
      · simp [ha]
      · simp [ha, ih]

/-- C4 counterexample: deserializing the two-element top-level sequence
`[{file: a, pages: [{file: b}]}, {file: c}]` does *not* append `{file: c}`
after the declared child `{file: b}` — line 114 of `toc.py`
(`toc_updated["pages"] = subsections`) overwrites the first element's
existing `pages`, so the result's children are `[{file: c}]` alone. -/
theorem normalize_replaces_counterexample :
    normalize_toc (.list
        [.map [("file", .str "a"),
               ("pages", .list [.map [("file", .str "b")]])],
         .map [("file", .str "c")]]) =
      .ok (.map [("file", .str "a"),
                 ("pages", .list [.map [("file", .str "c")]])]) ∧
    normalize_toc (.list
        [.map [("file", .str "a"),
               ("pages", .list [.map [("file", .str "b")]])],
         .map [("file", .str "c")]]) ≠
      .ok (.map [("file", .str "a"),
                 ("pages", .list [.map [("file", .str "b")],
                                  .map [("file", .str "c")]])]) := by
  constructor
  · rfl
  · intro hc
    have h1 :
        normalize_toc (.list
            [.map [("file", .str "a"),
                   ("pages", .list [.map [("file", .str "b")]])],
             .map [("file", .str "c")]]) =
          .ok (.map [("file", .str "a"),
                     ("pages", .list [.map [("file", .str "c")]])]) := rfl
    rw [h1] at hc
    exact absurd (Except.ok.inj hc) (by decide)

/-- C4 (amended): on a top-level sequence of two or more elements the first
element becomes the root and all subsequent elements become its entire
`pages` value in their original order, *replacing* any children the first
element already declares (other keys are untouched); a single-element
sequence or a bare mapping is used as-is. -/
theorem normalize_toc_amended (kvs : List (String × Yaml)) (x : Yaml)
    (rest : List Yaml) (y : Yaml) :
    (∃ kvs2, normalize_toc (.list (Yaml.map kvs :: x :: rest)) =
        .ok (.map kvs2) ∧
      lookupKey kvs2 "pages" = some (.list (x :: rest)) ∧
      ∀ k, k ≠ "pages" → lookupKey kvs2 k = lookupKey kvs k) ∧
    normalize_toc (.list [y]) = .ok y ∧
    normalize_toc (.map kvs) = .ok (.map kvs) := by
  refine ⟨⟨setKey kvs "pages" (.list (x :: rest)), rfl, ?_, ?_⟩, rfl, rfl⟩
  · exact lookupKey_setKey_self ..
  · intro k hk
    exact lookupKey_setKey_ne _ _ _ _ hk

/-- C4 amended-claim witness: the amended normalization evaluated on the
counterexample input. -/
theorem normalize_toc_amended_witness :
    ∃ kvs2,
      normalize_toc (.list
          [.map [("file", .str "a"),
                 ("pages", .list [.map [("file", .str "b")]])],
           .map [("file", .str "c")]]) = .ok (.map kvs2) ∧
      lookupKey kvs2 "pages" = some (.list [.map [("file", .str "c")]]) ∧
      lookupKey kvs2 "file" = some (.str "a") := by
  obtain ⟨kvs2, h1, h2, h3⟩ :=
    (normalize_toc_amended
      [("file", .str "a"), ("pages", .list [.map [("file", .str "b")]])]
      (.map [("file", .str "c")]) [] (.null)).1
  refine ⟨kvs2, h1, h2, ?_⟩
  rw [h3 "file" (by decide)]
  rfl

/-- C5 counterexample: a node whose `pages` key is explicitly `null` (YAML
`pages:` with no value) crashes `find_name` — `page.get("pages", [])`
returns `None` (the key *is* present), and `for page in None` raises
`TypeError` — instead of being treated as an empty search space. -/
theorem find_name_null_pages_error :
    findNameY (.map [("file", .str "a"), ("pages", .null)]) "b" =
      .error () := by
  simp [findNameY.eq_def, findNameNode.eq_def, findNameL.eq_def, getKey,
    getKeyD, lookupKey, noSuffixY, noSuffixPath, splitPath, joinPath,
    splitChar, joinChar, pyStem, pySuffix, lastDotIdx]

/-- C8 counterexample: a root directory with no qualifying content files of
its own returns `None` even though a qualifying file (`sub/a.md`) exists
under the root — `_find_content_structure` returns before ever recursing
(lines 148–149), so the claim's "at least one qualifying content file
anywhere under the root" is not sufficient. -/
theorem scan_subdir_only_counterexample :
    scanEntries [.dir "sub" [.file "a.md"]] "book" [] "book" "_" [] = none ∧
    SUPPORTED_FILE_SUFFIXES.contains (pySuffix "a.md") = true := by
  constructor
  · simp only [scanEntries.eq_def, scanFolders.eq_def]; decide
  · decide

theorem findIndexGo_cons_index (e : FsEntry) (fc : Option FsEntry)
    (e2 : FsEntry) (rest2 : List FsEntry) (h : pyStem e.name = "index") :
    findIndexGo (e :: e2 :: rest2) fc =
      ((findIndexGo rest2 (some e)).1, e2 :: (findIndexGo rest2 (some e)).2) := by
  simp [findIndexGo, h]

theorem findIndexGo_cons_other (e : FsEntry) (rest : List FsEntry)
    (fc : Option FsEntry) (h : ¬pyStem e.name = "index") :
    findIndexGo (e :: rest) fc =
      ((findIndexGo rest fc).1, e :: (findIndexGo rest fc).2) := by
  cases rest <;> simp [findIndexGo, h]

theorem findIndexGo_spec (l : List FsEntry) (fc0 : Option FsEntry) :
    ((findIndexGo l fc0).1 = none → (findIndexGo l fc0).2 = l ∧ fc0 = none) ∧
    (∀ e, (findIndexGo l fc0).1 = some e → fc0 = some e ∨ e ∈ l) := by
  induction l, fc0 using findIndexGo.induct with
  | case1 fc => simp [findIndexGo]
  | case2 e fc h =>
      simp [findIndexGo, h]
  | case3 e fc h e2 rest2 ih =>
      rw [findIndexGo_cons_index _ _ _ _ h]
      dsimp only
      constructor
      · intro hn
        exact absurd (ih.1 hn).2 (by simp)
      · intro e' he'
        rcases ih.2 e' he' with h1 | h1
        · simp [Option.some.inj h1]
        · simp [h1]
  | case4 e rest fc h ih =>
      rw [findIndexGo_cons_other _ _ _ h]
      dsimp only
      constructor
      · intro hn
        obtain ⟨h1, h2⟩ := ih.1 hn
        subst h2
        simp [h1]
      · intro e' he'
        rcases ih.2 e' he' with h1 | h1
        · exact Or.inl h1
        · simp [h1]

theorem assembleParent_shape (fc : FsEntry) (sibs : List FsEntry)
    (sp : List Yaml) (dn : String) (rd : List String) (ps sc : String)
    (sk : List String) :
    ∃ kvs, assembleParent fc sibs sp dn rd ps sc sk = .map kvs ∧
      lookupKey kvs "file" =
        some (.str (joinPath (rd ++ [pyStem (pyStem fc.name)]))) := by
  refine ⟨_, rfl, ?_⟩
  simp [assembleParent, content_path_to_yaml, lookupKey]

/-- C8 (amended): a directory level with zero qualifying content files
yields `none` without error; a directory whose *own* listing has at least
one qualifying file yields a root whose `file` value is the suffix-stripped
relative path of one of that directory's actual entries; and `build_toc`
raises its `ValueError` exactly when the whole root scan yields `none`.
(The original claim's "at least one qualifying file anywhere under the
root" is not sufficient: the root directory itself must contain one.) -/
theorem scan_null_and_error_behaviour :
    (∀ entries dn rd ps sc st,
        (entries.filter
          (fun e => SUPPORTED_FILE_SUFFIXES.contains (pySuffix e.name))).isEmpty
            = true →
        scanEntries entries dn rd ps sc st = none) ∧
    (∀ entries dn rd ps sc st,
        (entries.filter
          (fun e => SUPPORTED_FILE_SUFFIXES.contains (pySuffix e.name))).isEmpty
            = false →
        ∃ e kvs, e ∈ entries ∧ qualifies e = true ∧
          scanEntries entries dn rd ps sc st = some (.map kvs) ∧
          lookupKey kvs "file" =
            some (.str (joinPath (rd ++ [pyStem (pyStem e.name)])))) ∧
    (∀ rootEntries rootArg sc st,
        build_toc rootEntries rootArg sc st =
            .error ("No content files were found in " ++ rootArg ++ ".") ↔
          scanEntries rootEntries (lastComponent rootArg) [] rootArg sc st =
            none) := by
  refine ⟨?_, ?_, ?_⟩
  · intro entries dn rd ps sc st h
    rw [scanEntries.eq_def]
    simp only [h]
    simp
  · intro entries dn rd ps sc st h
    rw [scanEntries.eq_def]
    simp only [h, Bool.false_eq_true, if_false]
    set cf := entries.filter
      (fun e => SUPPORTED_FILE_SUFFIXES.contains (pySuffix e.name)) with hcf
    have hspec := findIndexGo_spec cf none
    rcases h1 : (findIndexGo cf none).1 with _ | fc
    · rcases h2 : (findIndexGo cf none).2 with _ | ⟨e, sibs⟩
      · exfalso
        have := (hspec.1 h1).1
        rw [h2] at this
        rw [← this] at h
        simp at h
      · have hmem : e ∈ cf := by
          have := (hspec.1 h1).1
          rw [h2] at this
          rw [← this]
          simp
        have hq := List.mem_filter.mp (hcf ▸ hmem)
        obtain ⟨kvs, hk1, hk2⟩ := assembleParent_shape e sibs
          (scanFolders entries rd ps sc (st ++ [".ipynb_checkpoints"]))
          dn rd ps sc (st ++ [".ipynb_checkpoints"])
        refine ⟨e, kvs, hq.1, by simpa [qualifies] using hq.2, ?_, hk2⟩
        dsimp only
        rw [hk1]
    · have hmem : fc ∈ cf := by
        rcases hspec.2 fc h1 with hc | hc
        · exact absurd hc (by simp)
        · exact hc
      have hq := List.mem_filter.mp (hcf ▸ hmem)
      obtain ⟨kvs, hk1, hk2⟩ := assembleParent_shape fc
        ((findIndexGo cf none).2)
        (scanFolders entries rd ps sc (st ++ [".ipynb_checkpoints"]))
        dn rd ps sc (st ++ [".ipynb_checkpoints"])
      refine ⟨fc, kvs, hq.1, by simpa [qualifies] using hq.2, ?_, hk2⟩
      dsimp only
      rw [hk1]
  · intro rootEntries rootArg sc st
    unfold build_toc
    rcases hs : scanEntries rootEntries (lastComponent rootArg) [] rootArg
        sc st with _ | y
    · simp
    · simp

/-- C8 amended-claim witness: the three branches at concrete inputs — an
empty directory scans to `none`; a one-file directory produces that file as
the root; `build_toc`'s error on an empty root coincides with the `none`
scan. -/
theorem scan_null_and_error_behaviour_witness :
    scanEntries [] "book" [] "book" "_" [] = none ∧
    (∃ e kvs, e ∈ [FsEntry.file "a.md"] ∧ qualifies e = true ∧
      scanEntries [FsEntry.file "a.md"] "book" [] "book" "_" [] =
        some (.map kvs) ∧
      lookupKey kvs "file" =
        some (.str (joinPath ([] ++ [pyStem (pyStem e.name)])))) ∧
    (build_toc [] "book" "_" [] =
        .error ("No content files were found in " ++ "book" ++ ".") ↔
      scanEntries [] (lastComponent "book") [] "book" "_" [] = none) := by
  refine ⟨?_, ?_, ?_⟩
  · exact scan_null_and_error_behaviour.1 [] "book" [] "book" "_" []
      (by decide)
  · exact scan_null_and_error_behaviour.2.1 [FsEntry.file "a.md"] "book" []
      "book" "_" [] (by decide)
  · exact scan_null_and_error_behaviour.2.2 [] "book" "_" []

theorem anchorFields_content (fname dn : String) (rd : List String)
    (sc : String) (tail : List (String × Yaml)) :
    anchorFields (some (.map (content_path_to_yaml fname dn rd sc ++ tail))) =
      some (.str (joinPath (rd ++ [pyStem (pyStem fname)])),
            .str (if pyStem fname = "index" then filenameToTitle dn sc
                  else filenameToTitle (pyStem fname) sc)) := by
  simp [anchorFields, content_path_to_yaml, getKey]

theorem anchorFields_assembleParent (fc : FsEntry) (sibs : List FsEntry)
    (sp : List Yaml) (dn : String) (rd : List String) (ps sc : String)
    (sk : List String) :
    anchorFields (some (assembleParent fc sibs sp dn rd ps sc sk)) =
      some (.str (joinPath (rd ++ [pyStem (pyStem fc.name)])),
            .str (if pyStem fc.name = "index" then filenameToTitle dn sc
                  else filenameToTitle (pyStem fc.name) sc)) :=
  anchorFields_content fc.name dn rd sc _

/-- C10: the anchor of a directory is picked *before* skip filtering — the
root's `file` and `title` do not depend on the skip list at all (first
conjunct), so a qualifying file whose path contains a skip substring still
becomes the anchor and appears in the TOC (`skipme.md` with skip substring
`"skip"`, second conjunct), even though the same file is dropped when it is
a non-anchor sibling (third conjunct, where the `pages` key vanishes). -/
theorem scan_anchor_ignores_skip :
    (∀ entries dn rd ps sc st,
        anchorFields (scanEntries entries dn rd ps sc st) =
          anchorFields (scanEntries entries dn rd ps sc [])) ∧
    scanEntries [.file "skipme.md"] "book" [] "book" "_" ["skip"] =
      some (.map [("file", .str "skipme"), ("title", .str "Skipme")]) ∧
    scanEntries [.file "index.md", .file "skipme.md"] "book" [] "book" "_"
        ["skip"] =
      some (.map [("file", .str "index"), ("title", .str "Book")]) := by
  refine ⟨?_, ?_, ?_⟩
  · intro entries dn rd ps sc st
    simp only [scanEntries.eq_def]
    by_cases h : (entries.filter
        (fun e => SUPPORTED_FILE_SUFFIXES.contains (pySuffix e.name))).isEmpty
    · simp only [h]
      simp
    · simp only [Bool.not_eq_true] at h
      simp only [h, Bool.false_eq_true, if_false]
      rcases h1 : (findIndexGo (entries.filter
          (fun e => SUPPORTED_FILE_SUFFIXES.contains (pySuffix e.name)))
          none).1 with _ | fc
      · rcases h2 : (findIndexGo (entries.filter
            (fun e => SUPPORTED_FILE_SUFFIXES.contains (pySuffix e.name)))
            none).2 with _ | ⟨e, sibs⟩
        · simp [anchorFields]
        · simp [anchorFields_assembleParent]
      · simp [anchorFields_assembleParent]
  · simp only [scanEntries.eq_def, scanFolders.eq_def]; decide
  · simp only [scanEntries.eq_def, scanFolders.eq_def]; decide

theorem find_append {α : Type} (p : α → Bool) (l₁ l₂ : List α) :
    (l₁ ++ l₂).find? p =
      match l₁.find? p with
      | some x => some x
      | none => l₂.find? p := by
  induction l₁ with
  | nil => simp
  | cons a l ih =>
    by_cases h : p a
    · simp [List.find?_cons_of_pos _ h]
    · simp [List.find?_cons_of_neg _ h, ih]

/-- `find_name` agrees with the spec's "first match of a depth-first
pre-order traversal" on well-formed inputs; proved for the list form and the
single-node form simultaneously by strong induction on size. -/
theorem findName_spec_aux (m : Nat) :
    (∀ xs : List Yaml, sizeOf xs ≤ m → ∀ n, wfL xs = true →
      findNameL xs n =
        .ok ((preorderL xs).find? (fun p => matchesName p n))) ∧
    (∀ kvs : List (String × Yaml), sizeOf kvs ≤ m → ∀ n,
      wfN (.map kvs) = true →
      findNameNode kvs n =
        .ok ((preorderN (.map kvs)).find? (fun p => matchesName p n))) := by
  induction m using Nat.strong_induction_on with
  | _ m ih =>
    constructor
    · intro xs hm n h
      match xs with
      | [] => simp [findNameL, preorderL]
      | x :: rest =>
        rw [wfL] at h
        simp only [Bool.and_eq_true] at h
        obtain ⟨hx, hrest⟩ := h
        have hsz : sizeOf x + sizeOf rest + 1 ≤ m := by
          have : sizeOf (x :: rest) = 1 + sizeOf x + sizeOf rest := by simp
          omega
        rcases x with _ | s | b | ys | kvs
        · simp [wfN] at hx
        · simp [wfN] at hx
        · simp [wfN] at hx
        · simp [wfN] at hx
        · have hszk : sizeOf kvs < m := by
            have : sizeOf (Yaml.map kvs) = 1 + sizeOf kvs := by simp
            omega
          have hszr : sizeOf rest < m := by
            have h1 : 1 ≤ sizeOf (Yaml.map kvs) := by simp
            omega
          rw [findNameL]
          have hnode := (ih (sizeOf kvs) hszk).2 kvs le_rfl n hx
          rw [hnode]
          rw [preorderL, find_append]
          rcases hfind : (preorderN (.map kvs)).find?
              (fun p => matchesName p n) with _ | q
          · exact (ih (sizeOf rest) hszr).1 rest le_rfl n hrest
          · rfl
    · intro kvs hm n h
      rw [findNameNode, preorderN]
      by_cases hmatch : noSuffixY (getKey kvs "file") = .str n
      · rw [if_pos hmatch, List.find?_cons_of_pos]
        simp [matchesName, hmatch]
      · rw [if_neg hmatch, List.find?_cons_of_neg]
        swap
        · simp [matchesName, hmatch]
        · rw [wfN] at h
          rcases hl : lookupKey kvs "pages" with _ | v
          · simp only [hl]
            rw [childrenOf, hl]
            simp [preorderL]
          · simp only [hl]
            rw [hl] at h
            rcases v with _ | s | b | ys | kvs2
            · simp at h
            · simp at h
            · simp at h
            · have hszy : sizeOf ys < m := by
                have h1 := sizeOf_lookupKey hl
                have h2 : sizeOf (Yaml.list ys) = 1 + sizeOf ys := by simp
                omega
              rw [childrenOf, hl]
              rw [findNameY]
              exact (ih (sizeOf ys) hszy).1 ys le_rfl n (by simpa using h)
            · simp at h

theorem findNameL_eq_spec (xs : List Yaml) (n : String) (h : wfL xs = true) :
    findNameL xs n = .ok ((preorderL xs).find? (fun p => matchesName p n)) :=
  (findName_spec_aux (sizeOf xs)).1 xs le_rfl n h

theorem findNameNode_eq_spec (kvs : List (String × Yaml)) (n : String)
    (h : wfN (.map kvs) = true) :
    findNameNode kvs n =
      .ok ((preorderN (.map kvs)).find? (fun p => matchesName p n)) :=
  (findName_spec_aux (sizeOf kvs)).2 kvs le_rfl n h

/-- The wrapper form of the pre-order equivalence, for any well-formed
top-level value. -/
theorem findNameY_eq_spec (pages : Yaml) (n : String)
    (h : wfY pages = true) :
    findNameY pages n = .ok (findSpec pages n) := by
  match pages with
  | .map kvs =>
    rw [findNameY]
    simp only [findSpec]
    rw [preorderL, preorderL, List.append_nil]
    exact findNameNode_eq_spec kvs n (by rwa [wfY] at h)
  | .list xs =>
    rw [findNameY]
    simp only [findSpec]
    exact findNameL_eq_spec xs n (by rwa [wfY] at h)
  | .null => simp [wfY] at h
  | .str s => simp [wfY] at h
  | .bool b => simp [wfY] at h

/-- C5 (amended): on well-formed trees — every node a dict whose `pages`
key, when present, holds a list of nodes — `find_name` returns (without
error) exactly the first match of a depth-first pre-order traversal
comparing suffix-stripped `file` values, and `none` when nothing matches.
(The original claim's "null child collections are treated as an empty
search space" fails: an explicit `pages: null` raises, see the
counterexample; only *missing* collections are treated as empty.) -/
theorem find_name_preorder (pages : Yaml) (n : String)
    (h : wfY pages = true) :
    findNameY pages n = .ok (findSpec pages n) :=
  findNameY_eq_spec pages n h

/-- C5 witness: the amended theorem applied to a concrete well-formed tree
holding duplicate paths at different depths; combined with a direct
evaluation of `find_name`, the pre-order-first (shallow, extension-stripped)
node wins and no error is raised. -/
theorem find_name_preorder_witness :
    wfY sampleDupTree = true ∧
    findNameY sampleDupTree "dup" = .ok (findSpec sampleDupTree "dup") ∧
    findNameY sampleDupTree "dup" =
      .ok (some (.map [("file", .str "dup.md")])) := by
  refine ⟨?_, ?_, ?_⟩
  · simp [sampleDupTree, wfY, wfN.eq_def, wfL.eq_def, lookupKey]
  · exact find_name_preorder sampleDupTree "dup"
      (by simp [sampleDupTree, wfY, wfN.eq_def, wfL.eq_def, lookupKey])
  · simp [sampleDupTree, findNameY.eq_def, findNameNode.eq_def,
      findNameL.eq_def, getKey, getKeyD, lookupKey, noSuffixY, noSuffixPath,
      splitPath, joinPath, splitChar, joinChar, pyStem, pySuffix, lastDotIdx]

theorem isPrefixOf_append_self (s b : List Char) :
    s.isPrefixOf (s ++ b) = true := by
  induction s with
  | nil => simp [List.isPrefixOf]
  | cons c cs ih => simp [List.isPrefixOf, ih]

theorem containsSub_self_append (s b : List Char) :
    containsSub (s ++ b) s = true := by
  cases s with
  | nil => cases b <;> simp [containsSub, List.isPrefixOf]
  | cons c cs =>
    rw [List.cons_append, containsSub]
    rw [← List.cons_append, isPrefixOf_append_self]
    simp

theorem containsSub_append_left (a b n : List Char)
    (h : containsSub b n = true) : containsSub (a ++ b) n = true := by
  induction a with
  | nil => simpa using h
  | cons c cs ih =>
    rw [List.cons_append, containsSub, ih]
    simp

theorem strContains_mid (pre s post : String) :
    strContains (pre ++ s ++ post) s = true := by
  unfold strContains
  have hdata : (pre ++ s ++ post).toList =
      pre.toList ++ (s.toList ++ post.toList) := by
    simp [String.toList, String.data_append]
  rw [hdata]
  exact containsSub_append_left _ _ _ (containsSub_self_append _ _)

theorem strContains_of_right (pre mid post needle : String)
    (h : containsSub post.toList needle.toList = true) :
    strContains (pre ++ mid ++ post) needle = true := by
  unfold strContains
  have hdata : (pre ++ mid ++ post).toList =
      pre.toList ++ (mid.toList ++ post.toList) := by
    simp [String.toList, String.data_append]
  rw [hdata]
  exact containsSub_append_left _ _ _ (containsSub_append_left _ _ _ h)

/-- C6: with a TOC configured, rendering a page whose suffix-stripped path
has no node in the loaded TOC tree makes `add_toctree` raise the
`FileNotFoundError` whose message contains the exact offending path (with
its source suffix) and the `_toc.yml` hint; the error is raised before any
toctree node is built, so the page's document is left untouched (the
function aborts without producing a modified doctree). -/
theorem add_toctree_missing_page_error (app : App) (doctree : Doctree)
    (h1 : ¬app.globaltoc_path = "")
    (h2 : wfY app.globaltoc = true)
    (h3 : findSpec app.globaltoc
      (noSuffixPath (app.docname ++ app.src_suffix)) = none) :
    add_toctree app doctree =
      .error (tocNotFoundMsg (app.docname ++ app.src_suffix)) ∧
    strContains (tocNotFoundMsg (app.docname ++ app.src_suffix))
      (app.docname ++ app.src_suffix) = true ∧
    strContains (tocNotFoundMsg (app.docname ++ app.src_suffix))
      "_toc.yml" = true := by
  have hfind := findNameY_eq_spec app.globaltoc
    (noSuffixPath (app.docname ++ app.src_suffix)) h2
  rw [h3] at hfind
  refine ⟨?_, ?_, ?_⟩
  · unfold add_toctree
    rw [if_neg h1]
    simp only [hfind]
  · exact strContains_mid
      "The following path in your table of contents couldn't be found:\n\n"
      (app.docname ++ app.src_suffix)
      ".\n\nDouble check your `_toc.yml` file to make sure the paths are correct."
  · exact strContains_of_right
      "The following path in your table of contents couldn't be found:\n\n"
      (app.docname ++ app.src_suffix)
      ".\n\nDouble check your `_toc.yml` file to make sure the paths are correct."
      "_toc.yml"
      (by decide)

/-- C6 witness: a concrete one-page TOC and a page (`missing.md`) absent
from it. -/
theorem add_toctree_missing_page_error_witness :
    add_toctree
        { globaltoc_path := "_toc.yml"
          globaltoc := .map [("file", .str "index")]
          docname := "missing"
          src_suffix := ".md" } [[]] =
      .error (tocNotFoundMsg ("missing" ++ ".md")) ∧
    strContains (tocNotFoundMsg ("missing" ++ ".md"))
      ("missing" ++ ".md") = true ∧
    strContains (tocNotFoundMsg ("missing" ++ ".md")) "_toc.yml" = true :=
  add_toctree_missing_page_error
    { globaltoc_path := "_toc.yml"
      globaltoc := .map [("file", .str "index")]
      docname := "missing"
      src_suffix := ".md" } [[]]
    (by decide)
    (by simp [wfY, wfN.eq_def, lookupKey])
    (by
      simp [findSpec, preorderL.eq_def, preorderN.eq_def, childrenOf,
        lookupKey, matchesName, getKey, noSuffixY, noSuffixPath, splitPath,
        joinPath, splitChar, joinChar, pyStem, pySuffix, lastDotIdx]
      decide)

/-- C7: in the navigation computed by `add_toctree` (lines 57–65 of
`toc.py`, modelled by `tocSections`), every child's `file` path is
re-expressed with `os.path.relpath` relative to the current page's
containing directory, not the content root (first conjunct, for a page of
any shape built by `mkPage`); in particular for anchor `docs/index` with
children `docs/intro` and `docs/guide/index` the computed entry paths are
`intro` and `guide/index` (second conjunct).  The full `add_toctree` then
re-joins each of these relative paths onto the current docname when it
builds the toctree node's entries. -/
theorem injector_relative_paths :
    (∀ f children, tocSections (mkPage f children) =
        some (children.map (fun c => (c.1, relpath c.2 (pyParent f))))) ∧
    tocSections [("file", .str "docs/index"),
      ("pages", .list
        [.map [("file", .str "docs/intro"), ("title", .str "Intro")],
         .map [("file", .str "docs/guide/index"), ("title", .str "Guide")]])] =
      some [(.str "Intro", "intro"), (.str "Guide", "guide/index")] := by
  constructor
  · intro f children
    simp only [tocSections, mkPage, getKeyD, getKey, lookupKey]
    simp [List.all_eq_true, Function.comp, getKey]
    intro a b x x1 hmem h1 h2
    subst h2
    rfl
  · rfl

/-! ## Lemmas: line classification of emitted lines -/

theorem countIndent_not_space (c : Char) (t : List Char) (h : ¬c = ' ') :
    countIndent (c :: t) = 0 := by
  rw [countIndent.eq_def]
  split
  · next heq => cases heq; exact absurd rfl h
  · rfl

theorem countIndent_pad (ind : Nat) (c : Char) (t : List Char)
    (h : ¬c = ' ') : countIndent (pad ind ++ c :: t) = ind := by
  induction ind with
  | zero => simpa [pad] using countIndent_not_space c t h
  | succ n ih =>
    have : pad (n + 1) ++ c :: t = ' ' :: (pad n ++ c :: t) := by
      simp [pad, List.replicate_succ]
    rw [this, countIndent]
    omega

theorem drop_pad (ind : Nat) (x : List Char) :
    (pad ind ++ x).drop ind = x := by
  have h := List.drop_left (pad ind) x
  have hl : (pad ind).length = ind := by simp [pad]
  rwa [hl] at h

theorem splitAtColon_append (k rest : List Char)
    (h : k.all (fun c => !(c = ':')) = true) :
    splitAtColon (k ++ ':' :: rest) = some (k, rest) := by
  induction k with
  | nil => rfl
  | cons c t ih =>
    simp only [List.all_cons, Bool.and_eq_true] at h
    rw [List.cons_append, splitAtColon.eq_def]
    split
    · next heq => cases heq
    · next heq =>
        cases heq
        simp at h
    · next c' t' heq =>
        cases heq
        rw [ih h.2]

theorem alnum_ne_space {c : Char} (h : c.isAlphanum = true) : ¬c = ' ' := by
  intro hc; subst hc; simp [Char.isAlphanum, Char.isAlpha, Char.isDigit,
    Char.isUpper, Char.isLower] at h

theorem alnum_ne_dash {c : Char} (h : c.isAlphanum = true) : ¬c = '-' := by
  intro hc; subst hc; simp [Char.isAlphanum, Char.isAlpha, Char.isDigit,
    Char.isUpper, Char.isLower] at h

theorem keyOk_no_colon {cs : List Char} (h : keyOk cs = true) :
    cs.all (fun c => !(c = ':')) = true := by
  match cs with
  | [] => rfl
  | c :: t =>
    rw [keyOk] at h
    simp only [Bool.and_eq_true] at h
    rw [List.all_eq_true]
    intro x hx
    have := List.all_eq_true.mp h.2 x hx
    simp at this ⊢
    exact this.1

theorem classify_kv (ind : Nat) (k v : List Char) (hk : keyOk k = true)
    (hv : ¬v = []) :
    classify (pad ind ++ (k ++ ':' :: ' ' :: v)) = some (.kv ind k v) := by
  match k with
  | [] => rw [keyOk] at hk; cases hk
  | c :: kt =>
    have hcolon := keyOk_no_colon hk
    rw [keyOk] at hk
    simp only [Bool.and_eq_true] at hk
    have hcs : ¬c = ' ' := alnum_ne_space hk.1
    have hcd : ¬c = '-' := alnum_ne_dash hk.1
    have hassoc : (c :: kt) ++ ':' :: ' ' :: v = c :: (kt ++ ':' :: ' ' :: v) := by
      simp
    rw [hassoc]
    simp only [classify, countIndent_pad ind c _ hcs, drop_pad]
    rw [show (c :: (kt ++ ':' :: ' ' :: v)) = (c :: kt) ++ ':' :: ' ' :: v
      from by simp]
    split
    · next heq =>
        exact absurd heq (by simp)
    · next rest heq =>
        exfalso
        have : c = '-' := by
          have := congrArg (fun l => l.head?) heq
          simpa using this
        exact hcd this
    · next hne1 hne2 =>
        rw [splitAtColon_append _ _ hcolon]
        have hke : ((c :: kt).isEmpty) = false := rfl
        have hve : (v.isEmpty) = false := by
          cases v with
          | nil => exact absurd rfl hv
          | cons a b => rfl
        simp [hke, hve]

theorem classify_keyOnly (ind : Nat) (k : List Char) (hk : keyOk k = true) :
    classify (pad ind ++ (k ++ [':'])) = some (.keyOnly ind k) := by
  match k with
  | [] => rw [keyOk] at hk; cases hk
  | c :: kt =>
    have hcolon := keyOk_no_colon hk
    rw [keyOk] at hk
    simp only [Bool.and_eq_true] at hk
    have hcs : ¬c = ' ' := alnum_ne_space hk.1
    have hcd : ¬c = '-' := alnum_ne_dash hk.1
    have hassoc : (c :: kt) ++ [':'] = c :: (kt ++ [':']) := by simp
    rw [hassoc]
    simp only [classify, countIndent_pad ind c _ hcs, drop_pad]
    rw [show (c :: (kt ++ [':'])) = (c :: kt) ++ ':' :: [] from by simp]
    split
    · next heq =>
        exact absurd heq (by simp)
    · next rest heq =>
        exfalso
        have : c = '-' := by
          have := congrArg (fun l => l.head?) heq
          simpa using this
        exact hcd this
    · next hne1 hne2 =>
        rw [splitAtColon_append _ _ hcolon]
        have hke : ((c :: kt).isEmpty) = false := rfl
        simp [hke]

theorem classify_dash (ind : Nat) (r : List Char) :
    classify (pad ind ++ '-' :: ' ' :: r) = some (.dash ind r) := by
  simp only [classify, countIndent_pad ind '-' _ (by decide), drop_pad]

theorem pMap_stop (fuel ind : Nat) (ls : List (List Char))
    (h : bndMap ind ls = true) : pMap (fuel + 1) ind ls = some ([], ls) := by
  match ls with
  | [] => rfl
  | l :: rest =>
    rw [bndMap] at h
    rw [pMap]
    rcases hc : classify l with _ | (⟨i, k, v⟩ | ⟨i, k⟩ | ⟨i, r⟩) <;>
      rw [hc] at h <;> simp only at h ⊢
    · cases h
    · simp at h
      rw [if_neg (by omega)]
    · simp at h
      rw [if_neg (by omega)]

theorem pItems_stop (fuel ind : Nat) (ls : List (List Char))
    (h : bndItems ind ls = true) : pItems (fuel + 1) ind ls = some ([], ls) := by
  match ls with
  | [] => rfl
  | l :: rest =>
    rw [bndItems] at h
    rw [pItems]
    rcases hc : classify l with _ | (⟨i, k, v⟩ | ⟨i, k⟩ | ⟨i, r⟩) <;>
      rw [hc] at h <;> simp only at h ⊢
    · cases h
    · simp at h
      rw [if_neg (by omega)]

theorem bndItems_of_bndMap (ind : Nat) (ls : List (List Char))
    (h : bndMap ind ls = true) : bndItems ind ls = true := by
  match ls with
  | [] => rfl
  | l :: rest =>
    rw [bndMap] at h
    rw [bndItems]
    rcases hc : classify l with _ | (⟨i, k, v⟩ | ⟨i, k⟩ | ⟨i, r⟩) <;>
      rw [hc] at h <;> simp only at h ⊢
    · cases h
    · simp at h ⊢; omega
    · simp at h ⊢; omega
    · simpa using h

theorem bndMap_of_bndItems (ind : Nat) (ls : List (List Char))
    (h : bndItems ind ls = true) : bndMap (ind + 2) ls = true := by
  match ls with
  | [] => rfl
  | l :: rest =>
    rw [bndItems] at h
    rw [bndMap]
    rcases hc : classify l with _ | (⟨i, k, v⟩ | ⟨i, k⟩ | ⟨i, r⟩) <;>
      rw [hc] at h <;> simp only at h ⊢
    · cases h
    · simp at h ⊢; omega
    · simp at h ⊢; omega
    · simp at h ⊢; omega

theorem strMk_toList (s : String) : String.mk s.toList = s := rfl

theorem plainScalar_props {s : String} (h : plainScalar s = true) :
    ¬s.toList = [] ∧ ¬s = "true" ∧ ¬s = "false" := by
  rw [plainScalar] at h
  simp only [Bool.and_eq_true] at h
  refine ⟨?_, ?_, ?_⟩
  · have := h.1.1.1.1.1.1
    intro hc
    rw [hc] at this
    simp at this
  · intro hc
    subst hc
    have := h.2
    simp [List.contains] at this
  · intro hc
    subst hc
    have := h.2
    simp [List.contains] at this

theorem scalarOf_plain (s : String) (hp : plainScalar s = true) :
    scalarOf s.toList = .str s := by
  obtain ⟨hne, ht, hf⟩ := plainScalar_props hp
  rw [scalarOf]
  rw [if_neg (fun hc => ht (by
    have := congrArg String.mk hc
    rwa [strMk_toList] at this))]
  rw [if_neg (fun hc => hf (by
    have := congrArg String.mk hc
    rwa [strMk_toList] at this))]
  rw [strMk_toList]

theorem scalarOf_bool (b : Bool) :
    scalarOf (if b then "true" else "false").toList = .bool b := by
  cases b <;> rfl

theorem schemaVal_shape {k : String} {v : Yaml} (h : schemaVal k v = true) :
    (∃ s, v = .str s ∧ plainScalar s = true) ∨ (∃ b, v = .bool b) ∨
    (∃ x xs, v = .list (x :: xs) ∧ schemaItems (x :: xs) = true) := by
  rw [schemaVal.eq_def] at h
  by_cases h1 : (k = "file" || k = "title" || k = "header") = true
  · rw [if_pos h1] at h
    rcases v with _ | s | b | xs | kvs
    · simp at h
    · exact Or.inl ⟨s, rfl, by simpa using h⟩
    · simp at h
    · simp at h
    · simp at h
  · rw [if_neg h1] at h
    by_cases h2 : (k = "numbered" || k = "divider") = true
    · rw [if_pos h2] at h
      rcases v with _ | s | b | xs | kvs
      · simp at h
      · simp at h
      · exact Or.inr (Or.inl ⟨b, rfl⟩)
      · simp at h
      · simp at h
    · rw [if_neg h2] at h
      by_cases h3 : k = "pages"
      · rw [if_pos h3] at h
        rcases v with _ | s | b | xs | kvs
        · simp at h
        · simp at h
        · simp at h
        · rcases xs with _ | ⟨x, xt⟩
          · simp at h
          · exact Or.inr (Or.inr ⟨x, xt, rfl, by simpa using h⟩)
        · simp at h
      · rw [if_neg h3] at h
        cases h

theorem schemaVal_cases {k : String} {v : Yaml} (h : schemaVal k v = true) :
    k = "file" ∨ k = "title" ∨ k = "header" ∨ k = "numbered" ∨
      k = "divider" ∨ k = "pages" := by
  by_contra hc
  push_neg at hc
  obtain ⟨h1, h2, h3, h4, h5, h6⟩ := hc
  rw [schemaVal.eq_def] at h
  rw [if_neg (by simp [h1, h2, h3]), if_neg (by simp [h4, h5]),
    if_neg h6] at h
  cases h

theorem keyOk_of_schemaVal {k : String} {v : Yaml}
    (h : schemaVal k v = true) : keyOk k.toList = true := by
  rcases schemaVal_cases h with rfl | rfl | rfl | rfl | rfl | rfl <;> decide

/-- The first line of `emitKV` (hence of `emitMap` on a non-empty dict), for
each value shape of the schema. -/
theorem emitKV_shape (ind : Nat) (k : String) (v : Yaml)
    (hv : schemaVal k v = true) :
    (∃ s, v = .str s ∧ plainScalar s = true ∧
      emitKV ind k v = [pad ind ++ (k.toList ++ ':' :: ' ' :: s.toList)]) ∨
    (∃ b, v = .bool b ∧
      emitKV ind k v =
        [pad ind ++ (k.toList ++ ':' :: ' ' ::
          (if b then "true" else "false").toList)]) ∨
    (∃ x xs, v = .list (x :: xs) ∧ schemaItems (x :: xs) = true ∧
      emitKV ind k v =
        (pad ind ++ (k.toList ++ [':'])) :: emitItems ind (x :: xs)) := by
  rcases schemaVal_shape hv with ⟨s, rfl, hp⟩ | ⟨b, rfl⟩ | ⟨x, xs, rfl, hi⟩
  · refine Or.inl ⟨s, rfl, hp, ?_⟩
    rw [emitKV]
    simp
  · refine Or.inr (Or.inl ⟨b, rfl, ?_⟩)
    rw [emitKV]
    simp
  · refine Or.inr (Or.inr ⟨x, xs, rfl, hi, ?_⟩)
    rw [emitKV]
    simp

/-- One sequence item emits the same lines as its dict emitted two columns
deeper, with the first line's leading two spaces replaced by `"- "`. -/
theorem emitItem_eq (ind : Nat) (k : String) (v : Yaml)
    (itemRest : List (String × Yaml)) (hv : schemaVal k v = true) :
    ∃ r t, emitItem ind (.map ((k, v) :: itemRest)) =
        (pad ind ++ '-' :: ' ' :: r) :: t ∧
      emitMap (ind + 2) ((k, v) :: itemRest) = (pad (ind + 2) ++ r) :: t := by
  rcases schemaVal_shape hv with ⟨s, rfl, hp⟩ | ⟨b, rfl⟩ | ⟨x, xs, rfl, hi⟩
  · refine ⟨k.toList ++ ':' :: ' ' :: s.toList, emitMap (ind + 2) itemRest,
      ?_, ?_⟩
    · rw [emitItem]; simp
    · rw [emitMap, emitKV]; simp
  · refine ⟨k.toList ++ ':' :: ' ' :: (if b then "true" else "false").toList,
      emitMap (ind + 2) itemRest, ?_, ?_⟩
    · rw [emitItem]; simp
    · rw [emitMap, emitKV]; simp
  · refine ⟨k.toList ++ [':'],
      emitItems (ind + 2) (x :: xs) ++ emitMap (ind + 2) itemRest, ?_, ?_⟩
    · rw [emitItem]; simp
    · rw [emitMap, emitKV]; simp

/-- `pItems` stops correctly at the start of an emitted mapping. -/
theorem bndItems_emitMap (ind : Nat) (kvs : List (String × Yaml))
    (rest : List (List Char)) (hs : schemaKVs kvs = true)
    (hr : bndItems ind rest = true) :
    bndItems ind (emitMap ind kvs ++ rest) = true := by
  match kvs with
  | [] => rw [emitMap]; simpa
  | (k, v) :: kt =>
    rw [schemaKVs] at hs
    simp only [Bool.and_eq_true] at hs
    have hkOk := keyOk_of_schemaVal hs.1.1
    rcases emitKV_shape ind k v hs.1.1 with ⟨s, _, hp, he⟩ | ⟨b, _, he⟩ |
        ⟨x, xs, _, hi, he⟩
    · rw [emitMap, he]
      rw [List.cons_append, List.cons_append, bndItems,
        classify_kv ind _ _ hkOk (plainScalar_props hp).1]
      simp
    · rw [emitMap, he]
      rw [List.cons_append, List.cons_append, bndItems,
        classify_kv ind _ _ hkOk (by cases b <;> decide)]
      simp
    · rw [emitMap, he]
      rw [List.cons_append, List.cons_append, bndItems,
        classify_keyOnly ind _ hkOk]
      simp

/-- `pMap` at `ind + 2` stops correctly at the start of an emitted item
list at `ind` (or at the enclosing boundary when the list is exhausted). -/
theorem bndMap_emitItems (ind : Nat) (xs : List Yaml)
    (rest : List (List Char)) (hi : schemaItems xs = true)
    (hr : bndItems ind rest = true) :
    bndMap (ind + 2) (emitItems ind xs ++ rest) = true := by
  match xs with
  | [] => rw [emitItems]; simpa using bndMap_of_bndItems _ _ hr
  | x :: xt =>
    rw [schemaItems.eq_def] at hi
    rcases x with _ | s | b | ys | ikvsAll
    · simp at hi
    · simp at hi
    · simp at hi
    · simp at hi
    · rcases ikvsAll with _ | ⟨⟨k0, v0⟩, ikvs⟩
      · simp at hi
      · simp only [Bool.and_eq_true] at hi
        have hv0 : schemaVal k0 v0 = true := by
          have h1 := hi.1
          rw [schemaKVs] at h1
          simp only [Bool.and_eq_true] at h1
          exact h1.1.1
        obtain ⟨r, t, he1, he2⟩ := emitItem_eq ind k0 v0 ikvs hv0
        rw [emitItems, he1]
        rw [List.cons_append, List.cons_append, bndMap, classify_dash]
        simp

theorem ysizeV_str (s : String) : ysizeV (.str s) = 0 := by
  rw [ysizeV.eq_def]

theorem ysizeV_bool (b : Bool) : ysizeV (.bool b) = 0 := by
  rw [ysizeV.eq_def]

theorem ysizeV_list (xs : List Yaml) : ysizeV (.list xs) = ysizeI xs := by
  rw [ysizeV.eq_def]

theorem ysize_le_lines (m : Nat) :
    (∀ kvs : List (String × Yaml), sizeOf kvs ≤ m →
      schemaKVs kvs = true → ∀ ind,
      ysizeM kvs ≤ 2 * (emitMap ind kvs).length ∧
      (¬kvs = [] → ysizeM kvs + 1 ≤ 2 * (emitMap ind kvs).length)) ∧
    (∀ xs : List Yaml, sizeOf xs ≤ m → schemaItems xs = true → ∀ ind,
      ysizeI xs ≤ 2 * (emitItems ind xs).length) := by
  induction m using Nat.strong_induction_on with
  | _ m ih =>
    constructor
    · intro kvs hm hs ind
      match kvs with
      | [] => rw [ysizeM, emitMap]; simp
      | (k, v) :: kt =>
        rw [schemaKVs] at hs
        simp only [Bool.and_eq_true] at hs
        have hszkt : sizeOf kt < m := by
          have : sizeOf ((k, v) :: kt) = 1 + (1 + sizeOf k + sizeOf v) +
              sizeOf kt := by simp
          omega
        have hkt := ((ih (sizeOf kt) hszkt).1 kt le_rfl hs.2 ind).1
        have hstrong : ysizeM ((k, v) :: kt) + 1 ≤
            2 * (emitMap ind ((k, v) :: kt)).length := by
          rcases emitKV_shape ind k v hs.1.1 with ⟨s, hv, hp, he⟩ |
              ⟨b, hv, he⟩ | ⟨x, xs, hv, hi, he⟩
          · rw [emitMap, he, ysizeM]
            subst hv
            rw [ysizeV_str]
            simp at hkt ⊢
            omega
          · rw [emitMap, he, ysizeM]
            subst hv
            rw [ysizeV_bool]
            simp at hkt ⊢
            omega
          · have hszxs : sizeOf (x :: xs) < m := by
              subst hv
              have : sizeOf ((k, Yaml.list (x :: xs)) :: kt) =
                  1 + (1 + sizeOf k + (1 + sizeOf (x :: xs))) + sizeOf kt := by
                simp
              omega
            have hxs := (ih (sizeOf (x :: xs)) hszxs).2 (x :: xs) le_rfl hi ind
            rw [emitMap, he, ysizeM]
            subst hv
            rw [ysizeV_list]
            simp at hkt hxs ⊢
            omega
        exact ⟨by omega, fun _ => hstrong⟩
    · intro xs hm hi ind
      match xs with
      | [] => rw [ysizeI, emitItems]; simp
      | x :: xt =>
        rw [schemaItems.eq_def] at hi
        rcases x with _ | s | b | ys | ikvsAll
        · simp at hi
        · simp at hi
        · simp at hi
        · simp at hi
        · rcases ikvsAll with _ | ⟨⟨k0, v0⟩, ikvs⟩
          · simp at hi
          · simp only [Bool.and_eq_true] at hi
            have hv0 : schemaVal k0 v0 = true := by
              have h1 := hi.1
              rw [schemaKVs] at h1
              simp only [Bool.and_eq_true] at h1
              exact h1.1.1
            have hszi : sizeOf ((k0, v0) :: ikvs) < m := by
              have : sizeOf (Yaml.map ((k0, v0) :: ikvs) :: xt) =
                  1 + (1 + sizeOf ((k0, v0) :: ikvs)) + sizeOf xt := by simp
              omega
            have hszxt : sizeOf xt < m := by
              have : sizeOf (Yaml.map ((k0, v0) :: ikvs) :: xt) =
                  1 + (1 + sizeOf ((k0, v0) :: ikvs)) + sizeOf xt := by simp
              have h2 : 1 ≤ sizeOf ((k0, v0) :: ikvs) :=
                one_le_sizeOf_list _
              omega
            have hin := ((ih (sizeOf ((k0, v0) :: ikvs)) hszi).1
              ((k0, v0) :: ikvs) le_rfl hi.1 (ind + 2)).2 (by simp)
            have hxt := (ih (sizeOf xt) hszxt).2 xt le_rfl hi.2 ind
            obtain ⟨r, t, he1, he2⟩ := emitItem_eq ind k0 v0 ikvs hv0
            rw [emitItems, ysizeI, he1]
            have hlen : (emitMap (ind + 2) ((k0, v0) :: ikvs)).length =
                1 + t.length := by
              rw [he2]
              simp only [List.length_cons]
              omega
            rw [hlen] at hin
            simp at hxt ⊢
            omega

theorem ysizeI_map (kvs : List (String × Yaml)) (xt : List Yaml) :
    ysizeI (.map kvs :: xt) = 1 + ysizeM kvs + ysizeI xt := by
  rw [ysizeI.eq_def]

/-- Parsing inverts emission: a schema-typed mapping emitted at `ind`,
followed by boundary lines, parses back to itself with the boundary left
over; likewise for an emitted sequence.  Fuel counts parsed nodes. -/
theorem parse_emit_aux (m : Nat) :
    (∀ kvs : List (String × Yaml), sizeOf kvs ≤ m → schemaKVs kvs = true →
      ∀ ind fuel rest, bndMap ind rest = true → ysizeM kvs + 1 ≤ fuel →
      pMap fuel ind (emitMap ind kvs ++ rest) = some (kvs, rest)) ∧
    (∀ xs : List Yaml, sizeOf xs ≤ m → schemaItems xs = true →
      ∀ ind fuel rest, bndItems ind rest = true → ysizeI xs + 1 ≤ fuel →
      pItems fuel ind (emitItems ind xs ++ rest) = some (xs, rest)) := by
  induction m using Nat.strong_induction_on with
  | _ m ih =>
    constructor
    · intro kvs hm hs ind fuel rest hb hf
      match kvs with
      | [] =>
        obtain ⟨f, rfl⟩ : ∃ f, fuel = f + 1 := ⟨fuel - 1, by omega⟩
        rw [emitMap, List.nil_append]
        exact pMap_stop f ind rest hb
      | (k, v) :: kt =>
        rw [schemaKVs] at hs
        simp only [Bool.and_eq_true] at hs
        have hkOk := keyOk_of_schemaVal hs.1.1
        have hszkt : sizeOf kt < m := by
          have : sizeOf ((k, v) :: kt) = 1 + (1 + sizeOf k + sizeOf v) +
              sizeOf kt := by simp
          omega
        obtain ⟨f, rfl⟩ : ∃ f, fuel = f + 1 := ⟨fuel - 1, by omega⟩
        rw [ysizeM] at hf
        rcases emitKV_shape ind k v hs.1.1 with ⟨s, hv, hp, he⟩ |
            ⟨b, hv, he⟩ | ⟨x, xs, hv, hi, he⟩
        · subst hv
          rw [ysizeV_str] at hf
          have ihm := (ih (sizeOf kt) hszkt).1 kt le_rfl hs.2 ind f rest hb
            (by omega)
          rw [emitMap, he]
          simp only [List.cons_append, List.nil_append, pMap,
            classify_kv ind _ _ hkOk (plainScalar_props hp).1, ihm,
            scalarOf_plain s hp, strMk_toList, if_pos]
        · subst hv
          rw [ysizeV_bool] at hf
          have ihm := (ih (sizeOf kt) hszkt).1 kt le_rfl hs.2 ind f rest hb
            (by omega)
          rw [emitMap, he]
          simp only [List.cons_append, List.nil_append, pMap,
            classify_kv ind _ _ hkOk
              (by cases b <;> decide : ¬((if b then "true" else "false").toList) = []),
            ihm, scalarOf_bool b, strMk_toList, if_pos]
        · have hszxs : sizeOf (x :: xs) < m := by
            subst hv
            have : sizeOf ((k, Yaml.list (x :: xs)) :: kt) =
                1 + (1 + sizeOf k + (1 + sizeOf (x :: xs))) + sizeOf kt := by
              simp
            omega
          subst hv
          rw [ysizeV_list] at hf
          have ihi := (ih (sizeOf (x :: xs)) hszxs).2 (x :: xs) le_rfl hi
            ind f (emitMap ind kt ++ rest)
            (bndItems_emitMap ind kt rest hs.2 (bndItems_of_bndMap ind rest hb))
            (by omega)
          have ihm := (ih (sizeOf kt) hszkt).1 kt le_rfl hs.2 ind f rest hb
            (by omega)
          rw [emitMap, he]
          simp only [List.cons_append, List.append_assoc, pMap,
            classify_keyOnly ind _ hkOk, ihi, ihm, strMk_toList, if_pos]
    · intro xs hm hi ind fuel rest hb hf
      match xs with
      | [] =>
        obtain ⟨f, rfl⟩ : ∃ f, fuel = f + 1 := ⟨fuel - 1, by omega⟩
        rw [emitItems, List.nil_append]
        exact pItems_stop f ind rest hb
      | x :: xt =>
        rw [schemaItems.eq_def] at hi
        rcases x with _ | s | b | ys | ikvsAll
        · simp at hi
        · simp at hi
        · simp at hi
        · simp at hi
        · rcases ikvsAll with _ | ⟨⟨k0, v0⟩, ikvs⟩
          · simp at hi
          · simp only [Bool.and_eq_true] at hi
            have hv0 : schemaVal k0 v0 = true := by
              have h1 := hi.1
              rw [schemaKVs] at h1
              simp only [Bool.and_eq_true] at h1
              exact h1.1.1
            have hszi : sizeOf ((k0, v0) :: ikvs) < m := by
              have : sizeOf (Yaml.map ((k0, v0) :: ikvs) :: xt) =
                  1 + (1 + sizeOf ((k0, v0) :: ikvs)) + sizeOf xt := by simp
              omega
            have hszxt : sizeOf xt < m := by
              have : sizeOf (Yaml.map ((k0, v0) :: ikvs) :: xt) =
                  1 + (1 + sizeOf ((k0, v0) :: ikvs)) + sizeOf xt := by simp
              have h2 : 1 ≤ sizeOf ((k0, v0) :: ikvs) :=
                one_le_sizeOf_list _
              omega
            obtain ⟨f, rfl⟩ : ∃ f, fuel = f + 1 := ⟨fuel - 1, by omega⟩
            rw [ysizeI_map] at hf
            have hysm : 1 ≤ ysizeM ((k0, v0) :: ikvs) := by
              rw [ysizeM]; omega
            obtain ⟨r, t, he1, he2⟩ := emitItem_eq ind k0 v0 ikvs hv0
            have ihm := (ih (sizeOf ((k0, v0) :: ikvs)) hszi).1
              ((k0, v0) :: ikvs) le_rfl hi.1 (ind + 2) f
              (emitItems ind xt ++ rest)
              (bndMap_emitItems ind xt rest hi.2 hb) (by omega)
            have ihi := (ih (sizeOf xt) hszxt).2 xt le_rfl hi.2 ind f rest hb
              (by omega)
            rw [emitItems, he1]
            have hre : ∀ X : List (List Char),
                (pad (ind + 2) ++ r) :: (t ++ X) =
                emitMap (ind + 2) ((k0, v0) :: ikvs) ++ X := by
              intro X
              rw [he2]
              simp
            simp only [List.cons_append, List.append_assoc, pItems,
              classify_dash, hre, ihm, ihi, if_pos]

theorem pad_no_nl (ind : Nat) : (pad ind).all noNlC = true := by
  rw [List.all_eq_true]
  intro c hc
  rw [pad] at hc
  have := List.eq_of_mem_replicate hc
  subst this
  decide

theorem plainChar_ne_nl {c : Char} (h : plainChar c = true) :
    noNlC c = true := by
  by_cases hc : c = '\n'
  · subst hc
    revert h
    decide
  · simp [noNlC, hc]

theorem plainScalar_all {s : String} (h : plainScalar s = true) :
    s.toList.all plainChar = true := by
  rw [plainScalar] at h
  simp only [Bool.and_eq_true] at h
  exact h.1.1.1.1.1.2

theorem all_noNl_of_plain {cs : List Char} (h : cs.all plainChar = true) :
    cs.all noNlC = true := by
  rw [List.all_eq_true] at h ⊢
  intro c hc
  exact plainChar_ne_nl (h c hc)

theorem keyNoNl_of_schemaVal {k : String} {v : Yaml}
    (h : schemaVal k v = true) : k.toList.all noNlC = true := by
  rcases schemaVal_cases h with rfl | rfl | rfl | rfl | rfl | rfl <;> decide

theorem lineOk_pad (ind : Nat) (x : List Char) (hne : ¬x = [])
    (hx : x.all noNlC = true) : lineOk (pad ind ++ x) = true := by
  rw [lineOk]
  simp [List.all_append, pad_no_nl, hx, hne]

theorem emit_lines_ok (m : Nat) :
    (∀ kvs : List (String × Yaml), sizeOf kvs ≤ m → schemaKVs kvs = true →
      ∀ ind, (emitMap ind kvs).all lineOk = true) ∧
    (∀ xs : List Yaml, sizeOf xs ≤ m → schemaItems xs = true →
      ∀ ind, (emitItems ind xs).all lineOk = true) := by
  induction m using Nat.strong_induction_on with
  | _ m ih =>
    constructor
    · intro kvs hm hs ind
      match kvs with
      | [] => rw [emitMap]; rfl
      | (k, v) :: kt =>
        rw [schemaKVs] at hs
        simp only [Bool.and_eq_true] at hs
        have hknl := keyNoNl_of_schemaVal hs.1.1
        have hszkt : sizeOf kt < m := by
          have : sizeOf ((k, v) :: kt) = 1 + (1 + sizeOf k + sizeOf v) +
              sizeOf kt := by simp
          omega
        have hkt := (ih (sizeOf kt) hszkt).1 kt le_rfl hs.2 ind
        rcases emitKV_shape ind k v hs.1.1 with ⟨s, hv, hp, he⟩ |
            ⟨b, hv, he⟩ | ⟨x, xs, hv, hi, he⟩
        · have hsnl := all_noNl_of_plain (plainScalar_all hp)
          have hline := lineOk_pad ind (k.toList ++ ':' :: ' ' :: s.toList)
            (by simp)
            (by simp only [List.all_append, List.all_cons, hknl, hsnl,
                  Bool.and_true, Bool.true_and]
                decide)
          rw [emitMap, he]
          rw [List.singleton_append, List.all_cons, hline, hkt]
          rfl
        · have hvnl : ((if b then "true" else "false").toList).all noNlC
              = true := by cases b <;> decide
          have hline := lineOk_pad ind
            (k.toList ++ ':' :: ' ' :: (if b then "true" else "false").toList)
            (by simp)
            (by simp only [List.all_append, List.all_cons, hknl, hvnl,
                  Bool.and_true, Bool.true_and]
                decide)
          rw [emitMap, he]
          rw [List.singleton_append, List.all_cons, hline, hkt]
          rfl
        · have hszxs : sizeOf (x :: xs) < m := by
            subst hv
            have : sizeOf ((k, Yaml.list (x :: xs)) :: kt) =
                1 + (1 + sizeOf k + (1 + sizeOf (x :: xs))) + sizeOf kt := by
              simp
            omega
          have hxs := (ih (sizeOf (x :: xs)) hszxs).2 (x :: xs) le_rfl hi ind
          have hline := lineOk_pad ind (k.toList ++ [':'])
            (by simp)
            (by simp only [List.all_append, List.all_cons, List.all_nil,
                  hknl, Bool.and_true, Bool.true_and]
                decide)
          rw [emitMap, he]
          rw [List.cons_append, List.all_cons, List.all_append, hline,
            hxs, hkt]
          rfl
    · intro xs hm hi ind
      match xs with
      | [] => rw [emitItems]; rfl
      | x :: xt =>
        rw [schemaItems.eq_def] at hi
        rcases x with _ | s | b | ys | ikvsAll
        · simp at hi
        · simp at hi
        · simp at hi
        · simp at hi
        · rcases ikvsAll with _ | ⟨⟨k0, v0⟩, ikvs⟩
          · simp at hi
          · simp only [Bool.and_eq_true] at hi
            have hv0 : schemaVal k0 v0 = true := by
              have h1 := hi.1
              rw [schemaKVs] at h1
              simp only [Bool.and_eq_true] at h1
              exact h1.1.1
            have hszi : sizeOf ((k0, v0) :: ikvs) < m := by
              have : sizeOf (Yaml.map ((k0, v0) :: ikvs) :: xt) =
                  1 + (1 + sizeOf ((k0, v0) :: ikvs)) + sizeOf xt := by simp
              omega
            have hszxt : sizeOf xt < m := by
              have : sizeOf (Yaml.map ((k0, v0) :: ikvs) :: xt) =
                  1 + (1 + sizeOf ((k0, v0) :: ikvs)) + sizeOf xt := by simp
              have h2 : 1 ≤ sizeOf ((k0, v0) :: ikvs) :=
                one_le_sizeOf_list _
              omega
            have ihm := (ih (sizeOf ((k0, v0) :: ikvs)) hszi).1
              ((k0, v0) :: ikvs) le_rfl hi.1 (ind + 2)
            have ihx := (ih (sizeOf xt) hszxt).2 xt le_rfl hi.2 ind
            obtain ⟨r, t, he1, he2⟩ := emitItem_eq ind k0 v0 ikvs hv0
            rw [he2] at ihm
            simp only [List.all_cons, Bool.and_eq_true] at ihm
            have hrnl : r.all noNlC = true := by
              have := ihm.1
              rw [lineOk] at this
              simp only [List.all_append, Bool.and_eq_true] at this
              exact this.2.2
            have hline : lineOk (pad ind ++ '-' :: ' ' :: r) = true := by
              apply lineOk_pad ind ('-' :: ' ' :: r) (by simp)
              simp only [List.all_cons, hrnl, Bool.and_true]
              decide
            rw [emitItems, he1]
            rw [List.cons_append, List.all_cons, List.all_append, hline,
              ihm.2, ihx]
            rfl

theorem splitChar_ne_nil (sep : Char) (l : List Char) :
    ¬splitChar sep l = [] := by
  induction l with
  | nil => simp [splitChar]
  | cons c t ih =>
    rw [splitChar]
    cases h : splitChar sep t with
    | nil => simp
    | cons g gs =>
      dsimp only
      split <;> simp

theorem splitChar_cons_sep (sep : Char) (t : List Char) :
    splitChar sep (sep :: t) = [] :: splitChar sep t := by
  rw [splitChar]
  cases h : splitChar sep t with
  | nil => exact absurd h (splitChar_ne_nil sep t)
  | cons g gs =>
    dsimp only
    rw [if_pos rfl, ← h]

theorem splitChar_line (sep : Char) (l t : List Char)
    (hl : ∀ c ∈ l, ¬c = sep) :
    splitChar sep (l ++ sep :: t) = l :: splitChar sep t := by
  induction l with
  | nil => simpa using splitChar_cons_sep sep t
  | cons c cs ih =>
    have hcs : ¬c = sep := hl c (List.mem_cons_self c cs)
    rw [List.cons_append, splitChar,
      ih (fun a ha => hl a (List.mem_cons_of_mem c ha))]
    dsimp only
    rw [if_neg hcs]

theorem unlines_cons (l : List Char) (ls : List (List Char)) :
    unlines (l :: ls) = l ++ '\n' :: unlines ls := rfl

theorem splitChar_unlines (L : List (List Char))
    (h : L.all (fun l => l.all noNlC) = true) :
    splitChar '\n' (unlines L) = L ++ [[]] := by
  induction L with
  | nil => rfl
  | cons l ls ih =>
    simp only [List.all_cons, Bool.and_eq_true] at h
    have hl : ∀ c ∈ l, ¬c = '\n' := by
      intro c hc
      have := List.all_eq_true.mp h.1 c hc
      simpa [noNlC] using this
    rw [unlines_cons, splitChar_line '\n' l (unlines ls) hl, ih h.2]
    rfl

theorem filter_lines (L : List (List Char)) (h : L.all lineOk = true) :
    (L ++ [[]]).filter (fun l => !l.isEmpty) = L := by
  rw [List.filter_append]
  have h2 : List.filter (fun l => !l.isEmpty) [([] : List Char)] = [] := rfl
  rw [h2, List.append_nil]
  apply List.filter_eq_self.mpr
  intro l hl
  have := List.all_eq_true.mp h l hl
  rw [lineOk] at this
  simp only [Bool.and_eq_true] at this
  simpa using this.1

theorem toList_mk (cs : List Char) : (String.mk cs).toList = cs := rfl

theorem all_noNl_of_lineOk (L : List (List Char)) (h : L.all lineOk = true) :
    L.all (fun l => l.all noNlC) = true := by
  rw [List.all_eq_true] at h ⊢
  intro l hl
  have := h l hl
  rw [lineOk] at this
  simp only [Bool.and_eq_true] at this
  exact this.2

theorem safe_load_mk (L : List (List Char)) (l0 : List Char)
    (Lt : List (List Char)) (kvs : List (String × Yaml))
    (hL : L = l0 :: Lt) (hall : L.all lineOk = true)
    (hclass : (∃ i k v, classify l0 = some (.kv i k v)) ∨
      (∃ i k, classify l0 = some (.keyOnly i k)))
    (hparse : pMap (2 * L.length + 2) 0 L = some (kvs, [])) :
    safe_load (String.mk (unlines L)) = some (.map kvs) := by
  rw [safe_load]
  simp only [toList_mk,
    splitChar_unlines L (all_noNl_of_lineOk L hall), filter_lines L hall]
  subst hL
  simp only
  rcases hclass with ⟨i, k, v, hc⟩ | ⟨i, k, hc⟩ <;>
    rw [hc] <;> simp only <;> rw [hparse]

theorem lookupKey_of_hasKey {kvs : List (String × Yaml)} {k : String}
    (h : hasKey kvs k = true) : ∃ v, lookupKey kvs k = some v := by
  induction kvs with
  | nil => cases h
  | cons p rest ih =>
    obtain ⟨k', v'⟩ := p
    rw [hasKey] at h
    rw [lookupKey]
    by_cases hk : k' = k
    · exact ⟨v', by rw [if_pos hk]⟩
    · simp only [Bool.or_eq_true] at h
      rcases h with h | h
      · exact absurd (by simpa using h) hk
      · obtain ⟨v, hv⟩ := ih h
        exact ⟨v, by rw [if_neg hk]; exact hv⟩

theorem update_indexname_map (kvs : List (String × Yaml)) (fv : Yaml)
    (hfv : lookupKey kvs "file" = some fv) :
    update_indexname_toc (.map kvs) = .ok (.map kvs) := by
  rw [update_indexname_toc]
  simp [normalize_toc, getItemFile, hfv, Bind.bind, Except.bind, pure,
    Except.pure]

theorem safe_load_dump (t : Yaml) (h : schemaRoot t = true) :
    safe_load (safe_dump t) = some t := by
  rcases t with _ | s | b | xs | kvs
  · simp [schemaRoot.eq_def] at h
  · simp [schemaRoot.eq_def] at h
  · simp [schemaRoot.eq_def] at h
  · simp [schemaRoot.eq_def] at h
  · rw [schemaRoot] at h
    simp only [Bool.and_eq_true] at h
    obtain ⟨hs, hfile⟩ := h
    match kvs, hfile with
    | (k, v) :: kt, _ =>
      have hs' := hs
      rw [schemaKVs] at hs'
      simp only [Bool.and_eq_true] at hs'
      have hall := (emit_lines_ok (sizeOf ((k, v) :: kt))).1 ((k, v) :: kt)
        le_rfl hs 0
      have hkOk := keyOk_of_schemaVal hs'.1.1
      have hfuel := ((ysize_le_lines (sizeOf ((k, v) :: kt))).1 ((k, v) :: kt)
        le_rfl hs 0).1
      have hparse := (parse_emit_aux (sizeOf ((k, v) :: kt))).1 ((k, v) :: kt)
        le_rfl hs 0 (2 * (emitMap 0 ((k, v) :: kt)).length + 2) [] rfl
        (by omega)
      rw [List.append_nil] at hparse
      rw [safe_dump]
      rcases emitKV_shape 0 k v hs'.1.1 with ⟨s, hv, hp, he⟩ |
          ⟨b, hv, he⟩ | ⟨x, xs, hv, hi, he⟩
      · have hmap : emitMap 0 ((k, v) :: kt) =
            (pad 0 ++ (k.toList ++ ':' :: ' ' :: s.toList)) ::
              emitMap 0 kt := by
          rw [emitMap, he]
          simp
        exact safe_load_mk _ _ _ _ hmap hall
          (Or.inl ⟨0, k.toList, s.toList,
            classify_kv 0 _ _ hkOk (plainScalar_props hp).1⟩) hparse
      · have hmap : emitMap 0 ((k, v) :: kt) =
            (pad 0 ++ (k.toList ++ ':' :: ' ' ::
              (if b then "true" else "false").toList)) :: emitMap 0 kt := by
          rw [emitMap, he]
          simp
        exact safe_load_mk _ _ _ _ hmap hall
          (Or.inl ⟨0, k.toList, (if b then "true" else "false").toList,
            classify_kv 0 _ _ hkOk (by cases b <;> decide)⟩) hparse
      · have hmap : emitMap 0 ((k, v) :: kt) =
            (pad 0 ++ (k.toList ++ [':'])) ::
              (emitItems 0 (x :: xs) ++ emitMap 0 kt) := by
          rw [emitMap, he]
          simp
        exact safe_load_mk _ _ _ _ hmap hall
          (Or.inr ⟨0, k.toList, classify_keyOnly 0 _ hkOk⟩) hparse

/-- C3: serializing any tree inside the documented TOC schema (keys `file`,
`title`, `pages`, `numbered`, `divider`, `header`; plain scalar strings;
dict root carrying `file`) with `yaml.safe_dump(..., default_flow_style=False,
sort_keys=False)` and deserializing through `update_indexname`'s loader
returns the original tree: key order, nesting and values survive the
round-trip. -/
theorem serializer_roundtrip (t : Yaml) (h : schemaRoot t = true) :
    deserialize (safe_dump t) = .ok t := by
  rw [deserialize, safe_load_dump t h]
  rcases t with _ | s | b | xs | kvs
  · simp [schemaRoot.eq_def] at h
  · simp [schemaRoot.eq_def] at h
  · simp [schemaRoot.eq_def] at h
  · simp [schemaRoot.eq_def] at h
  · rw [schemaRoot] at h
    simp only [Bool.and_eq_true] at h
    obtain ⟨fv, hfv⟩ := lookupKey_of_hasKey h.2
    exact update_indexname_map kvs fv hfv

/-- C3 witness: the round-trip on a concrete nested tree using every
documented key. -/
theorem serializer_roundtrip_witness :
    schemaRoot sampleToc = true ∧
      deserialize (safe_dump sampleToc) = .ok sampleToc := by
  have hh : schemaRoot sampleToc = true := by
    rw [sampleToc]
    simp only [schemaRoot, schemaKVs.eq_def, schemaVal.eq_def,
      schemaItems.eq_def, plainScalar, hasKey]
    decide
  exact ⟨hh, serializer_roundtrip sampleToc hh⟩

end JB